import Mathlib

/-!
Verification development for the `parp` terrain-file tools.

The repository ships two drivers:
* `src/tools/offsetFix_msvc/main.cpp` with `offsetFix.h` — the offset-repair
  tool: it opens one file read-write, runs `findMCNKs`, `findMDDFandMODF`,
  `fixMCNKs`, `fixDoodads`, `fixWMOs` over it inside a try/catch, and on
  success copies the (in-place repaired) input file to the output path.
* `src/tools/fixes/main.cpp` — the legacy→current world-table conversion
  driver.

The bodies of the five repair functions and of the conversion classes are not
part of the repository sources; where a definition below embeds one of them it
is modelled from the specification (its doc comment says so and from which
spec words).  Files are shallowly embedded as lists of byte values
(`List Nat`, each element intended `< 256`), 32-bit fields as `Nat` with
explicit `% 2^32`, and the IEEE float position fields of placement records as
integer values patched by integer translation.
-/

namespace Parp

/-- A file buffer: a list of byte values. -/
abbrev File := List Nat

/-- Every element of the buffer is a genuine byte value. -/
def bytesValid (f : File) : Bool := f.all (fun b => decide (b < 256))

/-- Read one byte; positions past the end read as 0. -/
def readByte (f : File) (i : Nat) : Nat := f.getD i 0

/-- Read a little-endian 32-bit field, as the chunk header layout prescribes. -/
def readU32 (f : File) (i : Nat) : Nat :=
  readByte f i + 256 * readByte f (i + 1) + 65536 * readByte f (i + 2) +
    16777216 * readByte f (i + 3)

/-- Serialize a 32-bit value little-endian. -/
def encodeU32 (v : Nat) : List Nat :=
  [v % 256, v / 256 % 256, v / 65536 % 256, v / 16777216 % 256]

/-- Overwrite the bytes of `f` starting at `i` with `bs` (an in-bounds
in-place write, as performed through the tool's read-write stream). -/
def writeBytes (f : File) (i : Nat) (bs : List Nat) : File :=
  f.take i ++ bs ++ f.drop (i + bs.length)

theorem length_encodeU32 (v : Nat) : (encodeU32 v).length = 4 := rfl

theorem readU32_encodeU32 (v : Nat) (rest : List Nat) :
    readU32 (encodeU32 v ++ rest) 0 = v % 4294967296 := by
  simp [readU32, readByte, encodeU32, List.getD_eq_getElem?_getD, List.getElem?_append]
  omega

theorem encodeU32_mod (v : Nat) : encodeU32 (v % 4294967296) = encodeU32 v := by
  simp only [encodeU32, List.cons.injEq, and_true]
  omega

theorem readU32_lt (f : File) (i : Nat) (hv : bytesValid f = true) :
    readU32 f i < 4294967296 := by
  have hb : ∀ j, readByte f j < 256 := by
    intro j
    unfold readByte
    rcases h : f[j]? with _ | b
    · simp [List.getD_eq_getElem?_getD, h]
    · have hm : b ∈ f := by
        obtain ⟨hlt, he⟩ := List.getElem?_eq_some.mp h
        exact he ▸ List.getElem_mem hlt
      have := (List.all_eq_true.mp hv) b hm
      simp only [decide_eq_true_eq] at this
      simp [List.getD_eq_getElem?_getD, h]
      omega
  have h0 := hb i
  have h1 := hb (i + 1)
  have h2 := hb (i + 2)
  have h3 := hb (i + 3)
  unfold readU32
  omega

theorem length_writeBytes (f : File) (a : Nat) (bs : List Nat)
    (h : a + bs.length ≤ f.length) : (writeBytes f a bs).length = f.length := by
  simp [writeBytes]
  omega

theorem getD_append_lt (l r : List Nat) (j : Nat) (h : j < l.length) :
    (l ++ r).getD j 0 = l.getD j 0 := by
  simp [List.getD_eq_getElem?_getD, List.getElem?_append, h]

theorem getD_append_ge (l r : List Nat) (j : Nat) (h : l.length ≤ j) :
    (l ++ r).getD j 0 = r.getD (j - l.length) 0 := by
  simp [List.getD_eq_getElem?_getD, List.getElem?_append, Nat.not_lt.mpr h]

theorem getD_take (l : List Nat) (n j : Nat) :
    (l.take n).getD j 0 = if j < n then l.getD j 0 else 0 := by
  rcases Nat.lt_or_ge j n with h | h
  · simp [List.getD_eq_getElem?_getD, List.getElem?_take, h]
  · simp [List.getD_eq_getElem?_getD, List.getElem?_take, Nat.not_lt.mpr h]

theorem getD_drop (l : List Nat) (n j : Nat) :
    (l.drop n).getD j 0 = l.getD (n + j) 0 := by
  simp [List.getD_eq_getElem?_getD, List.getElem?_drop]

theorem getD_writeBytes (f : File) (a : Nat) (bs : List Nat)
    (h : a + bs.length ≤ f.length) (j : Nat) :
    (writeBytes f a bs).getD j 0 =
      if a ≤ j ∧ j < a + bs.length then bs.getD (j - a) 0 else f.getD j 0 := by
  have hta : (f.take a).length = a := by simp; omega
  unfold writeBytes
  rw [List.append_assoc]
  by_cases h1 : j < a
  · rw [getD_append_lt _ _ _ (by omega), getD_take, if_pos h1, if_neg (by omega)]
  · rw [getD_append_ge _ _ _ (by omega), hta]
    by_cases h2 : j < a + bs.length
    · rw [getD_append_lt _ _ _ (by omega), if_pos (by omega)]
    · rw [getD_append_ge _ _ _ (by omega), getD_drop, if_neg (by omega)]
      congr 1
      omega

/-- Pointwise extensionality for equal-length buffers. -/
theorem file_ext (f g : File) (hl : f.length = g.length)
    (h : ∀ j, f.getD j 0 = g.getD j 0) : f = g := by
  apply List.ext_getElem hl
  intro i h1 h2
  have := h i
  rwa [List.getD_eq_getElem?_getD, List.getD_eq_getElem?_getD,
    List.getElem?_eq_getElem h1, List.getElem?_eq_getElem h2] at this

/-- Writing back bytes that are already in place is the identity. -/
theorem writeBytes_same (f : File) (a : Nat) (bs : List Nat)
    (h : a + bs.length ≤ f.length)
    (hbs : ∀ j, j < bs.length → bs.getD j 0 = f.getD (a + j) 0) :
    writeBytes f a bs = f := by
  apply file_ext _ _ (length_writeBytes f a bs h)
  intro j
  rw [getD_writeBytes f a bs h j]
  by_cases hj : a ≤ j ∧ j < a + bs.length
  · rw [if_pos hj]
    have := hbs (j - a) (by omega)
    rw [this]
    congr 1
    omega
  · rw [if_neg hj]

theorem readU32_writeBytes_outside (f : File) (a : Nat) (bs : List Nat)
    (h : a + bs.length ≤ f.length) (i : Nat)
    (hout : i + 4 ≤ a ∨ a + bs.length ≤ i) :
    readU32 (writeBytes f a bs) i = readU32 f i := by
  unfold readU32 readByte
  rw [getD_writeBytes f a bs h i, getD_writeBytes f a bs h (i+1),
    getD_writeBytes f a bs h (i+2), getD_writeBytes f a bs h (i+3)]
  rcases hout with h1 | h1
  · rw [if_neg (by omega), if_neg (by omega), if_neg (by omega), if_neg (by omega)]
  · rw [if_neg (by omega), if_neg (by omega), if_neg (by omega), if_neg (by omega)]

theorem readByte_writeBytes_outside (f : File) (a : Nat) (bs : List Nat)
    (h : a + bs.length ≤ f.length) (j : Nat)
    (hout : j < a ∨ a + bs.length ≤ j) :
    readByte (writeBytes f a bs) j = readByte f j := by
  unfold readByte
  rw [getD_writeBytes f a bs h j, if_neg (by omega)]

theorem readU32_writeBytes_inside (f : File) (a : Nat) (bs : List Nat)
    (h : a + bs.length ≤ f.length) (k : Nat) (hk : k + 4 ≤ bs.length) :
    readU32 (writeBytes f a bs) (a + k) = readU32 bs k := by
  unfold readU32 readByte
  rw [getD_writeBytes f a bs h (a+k), getD_writeBytes f a bs h (a+k+1),
    getD_writeBytes f a bs h (a+k+2), getD_writeBytes f a bs h (a+k+3)]
  rw [if_pos (by omega), if_pos (by omega), if_pos (by omega), if_pos (by omega)]
  have e1 : a + k - a = k := by omega
  have e2 : a + k + 1 - a = k + 1 := by omega
  have e3 : a + k + 2 - a = k + 2 := by omega
  have e4 : a + k + 3 - a = k + 3 := by omega
  rw [e1, e2, e3, e4]

/-- A scanned chunk: 4-byte tag, absolute offset of its 8-byte header, and
declared payload length (the chunk header layout of the format). -/
structure ChunkInfo where
  tag : List Nat
  off : Nat
  len : Nat
deriving DecidableEq, Repr

/-- ASCII bytes of the terrain-chunk tag `MCNK`. -/
def MCNKtag : List Nat := [77, 67, 78, 75]

/-- ASCII bytes of the chunk-index tag `MCIN`. -/
def MCINtag : List Nat := [77, 67, 73, 78]

/-- ASCII bytes of the doodad-placement tag `MDDF`. -/
def MDDFtag : List Nat := [77, 68, 68, 70]

/-- ASCII bytes of the object-placement tag `MODF`. -/
def MODFtag : List Nat := [77, 79, 68, 70]

/-- The four tag bytes at a header position. -/
def tagAt (f : File) (p : Nat) : List Nat :=
  [readByte f p, readByte f (p + 1), readByte f (p + 2), readByte f (p + 3)]

/-- Modelled from the spec: `read_chunk` walks back-to-back tagged
length-prefixed chunks (4 ASCII tag bytes + little-endian uint32 length,
8-byte header followed by `length` payload bytes); it fails — the
`TruncatedChunk` condition — if fewer than 8 bytes remain for a header or
fewer than `length` bytes remain for the payload.  `fuel` bounds the
recursion; `f.length` steps always suffice since every chunk takes at least
8 bytes. -/
def scanAux (f : File) : Nat → Nat → Option (List ChunkInfo)
  | 0, pos => if pos = f.length then some [] else none
  | fuel + 1, pos =>
    if pos = f.length then some []
    else if f.length < pos + 8 then none
    else if f.length < pos + 8 + readU32 f (pos + 4) then none
    else (scanAux f fuel (pos + 8 + readU32 f (pos + 4))).map
      (fun L => ⟨tagAt f pos, pos, readU32 f (pos + 4)⟩ :: L)

/-- Scan the whole buffer top to bottom into its chunk sequence. -/
def scanChunks (f : File) : Option (List ChunkInfo) := scanAux f f.length 0

theorem scanAux_mem_facts (f : File) (fuel pos : Nat) (L : List ChunkInfo)
    (h : scanAux f fuel pos = some L) :
    ∀ c ∈ L, pos ≤ c.off ∧ c.off + 8 + c.len ≤ f.length ∧
      readU32 f (c.off + 4) = c.len ∧ c.tag = tagAt f c.off := by
  induction fuel generalizing pos L with
  | zero =>
    unfold scanAux at h
    by_cases hp : pos = f.length
    · rw [if_pos hp] at h
      cases h
      intro c hc
      cases hc
    · rw [if_neg hp] at h
      cases h
  | succ n ih =>
    unfold scanAux at h
    by_cases hp : pos = f.length
    · rw [if_pos hp] at h
      cases h
      intro c hc
      cases hc
    · rw [if_neg hp] at h
      by_cases h8 : f.length < pos + 8
      · rw [if_pos h8] at h
        cases h
      · rw [if_neg h8] at h
        by_cases hl : f.length < pos + 8 + readU32 f (pos + 4)
        · rw [if_pos hl] at h
          cases h
        · rw [if_neg hl] at h
          rcases hr : scanAux f n (pos + 8 + readU32 f (pos + 4)) with _ | L'
          · rw [hr] at h
            cases h
          · rw [hr] at h
            simp only [Option.map_some', Option.some.injEq] at h
            subst h
            intro c hc
            rw [List.mem_cons] at hc
            rcases hc with hc | hc
            · subst hc
              refine ⟨Nat.le_refl _, ?_, rfl, rfl⟩
              show pos + 8 + readU32 f (pos + 4) ≤ f.length
              omega
            · have := ih _ _ hr c hc
              exact ⟨by omega, this.2.1, this.2.2.1, this.2.2.2⟩

theorem scanAux_sep (f : File) (fuel pos : Nat) (L : List ChunkInfo)
    (h : scanAux f fuel pos = some L) :
    ∀ c ∈ L, ∀ d ∈ L, c = d ∨ c.off + 8 + c.len ≤ d.off ∨ d.off + 8 + d.len ≤ c.off := by
  induction fuel generalizing pos L with
  | zero =>
    unfold scanAux at h
    by_cases hp : pos = f.length
    · rw [if_pos hp] at h
      cases h
      intro c hc
      cases hc
    · rw [if_neg hp] at h
      cases h
  | succ n ih =>
    unfold scanAux at h
    by_cases hp : pos = f.length
    · rw [if_pos hp] at h
      cases h
      intro c hc
      cases hc
    · rw [if_neg hp] at h
      by_cases h8 : f.length < pos + 8
      · rw [if_pos h8] at h
        cases h
      · rw [if_neg h8] at h
        by_cases hl : f.length < pos + 8 + readU32 f (pos + 4)
        · rw [if_pos hl] at h
          cases h
        · rw [if_neg hl] at h
          rcases hr : scanAux f n (pos + 8 + readU32 f (pos + 4)) with _ | L'
          · rw [hr] at h
            cases h
          · rw [hr] at h
            simp only [Option.map_some', Option.some.injEq] at h
            subst h
            intro c hc d hd
            rw [List.mem_cons] at hc hd
            have hrest := scanAux_mem_facts f n _ _ hr
            rcases hc with hc | hc <;> rcases hd with hd | hd
            · left
              rw [hc, hd]
            · subst hc
              right
              left
              have := (hrest d hd).1
              simpa using this
            · subst hd
              right
              right
              have := (hrest c hc).1
              simpa using this
            · exact ih _ _ hr c hc d hd

theorem scanAux_congr (f g : File) (fuel pos : Nat) (L : List ChunkInfo)
    (h : scanAux f fuel pos = some L) (hlen : g.length = f.length)
    (hhd : ∀ c ∈ L, ∀ j, j < 8 → readByte g (c.off + j) = readByte f (c.off + j)) :
    scanAux g fuel pos = some L := by
  induction fuel generalizing pos L with
  | zero =>
    unfold scanAux at h ⊢
    rw [hlen]
    exact h
  | succ n ih =>
    unfold scanAux at h ⊢
    rw [hlen]
    by_cases hp : pos = f.length
    · rw [if_pos hp] at h ⊢
      exact h
    · rw [if_neg hp] at h ⊢
      by_cases h8 : f.length < pos + 8
      · rw [if_pos h8] at h
        cases h
      · rw [if_neg h8] at h ⊢
        by_cases hl : f.length < pos + 8 + readU32 f (pos + 4)
        · rw [if_pos hl] at h
          cases h
        · rw [if_neg hl] at h
          rcases hr : scanAux f n (pos + 8 + readU32 f (pos + 4)) with _ | L'
          · rw [hr] at h
            cases h
          · rw [hr] at h
            simp only [Option.map_some', Option.some.injEq] at h
            subst h
            have hhead : (⟨tagAt f pos, pos, readU32 f (pos + 4)⟩ : ChunkInfo) ∈
                (⟨tagAt f pos, pos, readU32 f (pos + 4)⟩ : ChunkInfo) :: L' :=
              List.mem_cons_self _ _
            have hu32 : readU32 g (pos + 4) = readU32 f (pos + 4) := by
              unfold readU32
              have h4 := hhd _ hhead 4 (by omega)
              have h5 := hhd _ hhead 5 (by omega)
              have h6 := hhd _ hhead 6 (by omega)
              have h7 := hhd _ hhead 7 (by omega)
              simp only at h4 h5 h6 h7
              rw [show pos + 4 + 1 = pos + 5 by omega, show pos + 4 + 2 = pos + 6 by omega,
                show pos + 4 + 3 = pos + 7 by omega]
              rw [h4, h5, h6, h7]
            have htag : tagAt g pos = tagAt f pos := by
              unfold tagAt
              have h0 := hhd _ hhead 0 (by omega)
              have h1 := hhd _ hhead 1 (by omega)
              have h2 := hhd _ hhead 2 (by omega)
              have h3 := hhd _ hhead 3 (by omega)
              simp only [Nat.add_zero] at h0 h1 h2 h3
              rw [h0, h1, h2, h3]
            have hrec : scanAux g n (pos + 8 + readU32 f (pos + 4)) = some L' := by
              apply ih _ _ hr
              intro c hc j hj
              exact hhd c (List.mem_cons_of_mem _ hc) j hj
            rw [hu32, if_neg hl, hrec]
            simp only [Option.map_some', htag]

/-- A write whose region lies inside the payload of a scanned chunk leaves
the scan of the buffer unchanged: chunk headers are disjoint from payloads. -/
theorem scanChunks_writeBytes (f : File) (L : List ChunkInfo) (c : ChunkInfo)
    (hL : scanChunks f = some L) (hc : c ∈ L) (a : Nat) (bs : List Nat)
    (ha : c.off + 8 ≤ a) (hb : a + bs.length ≤ c.off + 8 + c.len) :
    scanChunks (writeBytes f a bs) = some L := by
  have hfacts := scanAux_mem_facts f f.length 0 L hL
  have hsep := scanAux_sep f f.length 0 L hL
  have hcb := hfacts c hc
  have hin : a + bs.length ≤ f.length := by
    have := hcb.2.1
    omega
  have hlen : (writeBytes f a bs).length = f.length := length_writeBytes f a bs hin
  unfold scanChunks
  rw [hlen]
  apply scanAux_congr f _ f.length 0 L hL hlen
  intro d hd j hj
  apply readByte_writeBytes_outside f a bs hin
  rcases hsep c hc d hd with he | hlt | hgt
  · subst he
    left
    omega
  · right
    omega
  · left
    omega

/-- One entry of the current-generation chunk index, as declared in
`offsetFix.h`: `struct MCIN { UInt32 offset, size, temp1, temp2; }` —
16 bytes, with two reserved (`temp`) fields the tool does not interpret. -/
structure MCINEntry where
  offset : Nat
  size : Nat
  temp1 : Nat
  temp2 : Nat
deriving DecidableEq, Repr

/-- Serialize one index entry: four little-endian uint32 fields, 16 bytes. -/
def encodeEntry (e : MCINEntry) : List Nat :=
  encodeU32 e.offset ++ encodeU32 e.size ++ encodeU32 e.temp1 ++ encodeU32 e.temp2

/-- Serialize an index table back-to-back, as the fixed-size index payload. -/
def encodeTable (es : List MCINEntry) : List Nat := (es.map encodeEntry).flatten

/-- Decode a raw index payload into entries, 16 bytes at a time; a trailing
fragment shorter than one entry is ignored. -/
def decodeEntriesAux : List Nat → List MCINEntry
  | b0 :: b1 :: b2 :: b3 :: b4 :: b5 :: b6 :: b7 ::
    b8 :: b9 :: b10 :: b11 :: b12 :: b13 :: b14 :: b15 :: rest =>
    ⟨b0 + 256 * b1 + 65536 * b2 + 16777216 * b3,
     b4 + 256 * b5 + 65536 * b6 + 16777216 * b7,
     b8 + 256 * b9 + 65536 * b10 + 16777216 * b11,
     b12 + 256 * b13 + 65536 * b14 + 16777216 * b15⟩ :: decodeEntriesAux rest
  | _ => []

/-- Reduce an entry's fields to their 32-bit residues, as a serialization
round-trip does. -/
def canonEntry (e : MCINEntry) : MCINEntry :=
  ⟨e.offset % 4294967296, e.size % 4294967296, e.temp1 % 4294967296, e.temp2 % 4294967296⟩

/-- Modelled from the spec: the rebuilt index holds exactly 256 entries, one
per terrain sub-tile; entry `i` takes `(offset, size)` from the `i`-th
scanned terrain chunk (row-major encounter order), `offset = 0, size = 0`
when no such chunk exists, and carries the `temp` (reserved) fields of the
old index entry through byte-for-byte. -/
def mergeAux (scanned olds : List MCINEntry) : Nat → List MCINEntry
  | 0 => []
  | n + 1 =>
    ⟨(scanned.headD ⟨0, 0, 0, 0⟩).offset, (scanned.headD ⟨0, 0, 0, 0⟩).size,
     (olds.headD ⟨0, 0, 0, 0⟩).temp1, (olds.headD ⟨0, 0, 0, 0⟩).temp2⟩ ::
      mergeAux scanned.tail olds.tail n

theorem length_encodeEntry (e : MCINEntry) : (encodeEntry e).length = 16 := rfl

theorem length_encodeTable (es : List MCINEntry) : (encodeTable es).length = 16 * es.length := by
  induction es with
  | nil => rfl
  | cons e es ih =>
    simp only [encodeTable, List.map_cons, List.flatten_cons] at ih ⊢
    rw [List.length_append, ih, length_encodeEntry, List.length_cons]
    ring

theorem length_mergeAux (scanned olds : List MCINEntry) (n : Nat) :
    (mergeAux scanned olds n).length = n := by
  induction n generalizing scanned olds with
  | zero => rfl
  | succ m ih =>
    unfold mergeAux
    rw [List.length_cons, ih]

theorem decodeEntriesAux_encodeEntry (e : MCINEntry) (rest : List Nat) :
    decodeEntriesAux (encodeEntry e ++ rest) = canonEntry e :: decodeEntriesAux rest := by
  have hsplit : encodeEntry e ++ rest =
      e.offset % 256 :: e.offset / 256 % 256 :: e.offset / 65536 % 256 ::
      e.offset / 16777216 % 256 ::
      e.size % 256 :: e.size / 256 % 256 :: e.size / 65536 % 256 ::
      e.size / 16777216 % 256 ::
      e.temp1 % 256 :: e.temp1 / 256 % 256 :: e.temp1 / 65536 % 256 ::
      e.temp1 / 16777216 % 256 ::
      e.temp2 % 256 :: e.temp2 / 256 % 256 :: e.temp2 / 65536 % 256 ::
      e.temp2 / 16777216 % 256 :: rest := rfl
  rw [hsplit]
  simp only [decodeEntriesAux]
  congr 1
  unfold canonEntry
  simp only [MCINEntry.mk.injEq]
  refine ⟨by omega, by omega, by omega, by omega⟩

theorem decodeEntriesAux_encodeTable (es : List MCINEntry) :
    decodeEntriesAux (encodeTable es) = es.map canonEntry := by
  induction es with
  | nil => rfl
  | cons e es ih =>
    simp only [encodeTable, List.map_cons, List.flatten_cons] at ih ⊢
    rw [decodeEntriesAux_encodeEntry, ih]

theorem encodeEntry_canonEntry (e : MCINEntry) : encodeEntry (canonEntry e) = encodeEntry e := by
  unfold encodeEntry canonEntry
  rw [encodeU32_mod, encodeU32_mod, encodeU32_mod, encodeU32_mod]

/-- Remerging a merged table (with its own canonical image as the old table)
reproduces the same serialized bytes: the index rewrite is stable. -/
theorem encodeTable_merge_canon (scanned olds : List MCINEntry) (n : Nat) :
    encodeTable (mergeAux scanned ((mergeAux scanned olds n).map canonEntry) n) =
      encodeTable (mergeAux scanned olds n) := by
  induction n generalizing scanned olds with
  | zero => rfl
  | succ m ih =>
    simp only [mergeAux, List.map_cons, List.headD_cons, List.tail_cons]
    simp only [encodeTable, List.map_cons, List.flatten_cons] at ih ⊢
    rw [ih]
    congr 1
    unfold encodeEntry canonEntry
    rw [encodeU32_mod, encodeU32_mod]

/-- The merged entries read their reserved fields from the decoded old
payload, positionally. -/
theorem mergeAux_getD (scanned olds : List MCINEntry) (n i : Nat) (hi : i < n) :
    (mergeAux scanned olds n).getD i ⟨0, 0, 0, 0⟩ =
      ⟨(scanned.getD i ⟨0, 0, 0, 0⟩).offset, (scanned.getD i ⟨0, 0, 0, 0⟩).size,
       (olds.getD i ⟨0, 0, 0, 0⟩).temp1, (olds.getD i ⟨0, 0, 0, 0⟩).temp2⟩ := by
  induction n generalizing scanned olds i with
  | zero => omega
  | succ m ih =>
    unfold mergeAux
    cases i with
    | zero =>
      cases scanned <;> cases olds <;> rfl
    | succ k =>
      have := ih scanned.tail olds.tail k (by omega)
      rw [List.getD_cons_succ, this]
      congr 1 <;> cases scanned <;> cases olds <;> rfl

theorem getD_flatten_uniform (ls : List (List Nat)) (hu : ∀ l ∈ ls, l.length = 16)
    (i j : Nat) (hj : j < 16) (hi : i < ls.length) :
    ls.flatten.getD (16 * i + j) 0 = (ls.getD i []).getD j 0 := by
  induction ls generalizing i with
  | nil => simp at hi
  | cons l ls ih =>
    have hl : l.length = 16 := hu l (List.mem_cons_self _ _)
    cases i with
    | zero =>
      simp only [List.flatten_cons, Nat.mul_zero, Nat.zero_add, List.getD_cons_zero]
      rw [getD_append_lt _ _ _ (by omega)]
    | succ k =>
      simp only [List.flatten_cons, List.getD_cons_succ]
      rw [getD_append_ge _ _ _ (by rw [hl]; omega)]
      have : 16 * (k + 1) + j - l.length = 16 * k + j := by rw [hl]; ring_nf; omega
      rw [this]
      exact ih (fun m hm => hu m (List.mem_cons_of_mem _ hm)) k (by simpa using hi)

/-- Byte `16*i + j` of a serialized table is byte `j` of entry `i`. -/
theorem getD_encodeTable (es : List MCINEntry) (i j : Nat) (hj : j < 16)
    (hi : i < es.length) :
    (encodeTable es).getD (16 * i + j) 0 =
      (encodeEntry (es.getD i ⟨0, 0, 0, 0⟩)).getD j 0 := by
  unfold encodeTable
  rw [getD_flatten_uniform (es.map encodeEntry)
    (by intro l hl; obtain ⟨e, _, he⟩ := List.mem_map.mp hl; rw [← he]; exact length_encodeEntry e)
    i j hj (by simpa using hi)]
  congr 1
  rw [List.getD_eq_getElem?_getD, List.getD_eq_getElem?_getD, List.getElem?_map,
    List.getElem?_eq_getElem hi]
  rfl

/-- Modelled from the spec: translate a 32-bit position field by an integer
delta (the origin delta), wrapping to 32 bits.  The position fields are
IEEE floats in the real format; translation is modelled on their 32-bit
integer values. -/
def addDelta (v : Nat) (d : Int) : Nat := (((v : Int) + d) % 4294967296).toNat

/-- Modelled from the spec: one placement record's patch — position is the
3×32-bit group at bytes 4–15 (after the uint32 name index); each component
gets the corresponding delta component added, all other bytes of the record
(rotation, scale/bounding box, unique id, flags) are untouched. -/
def patchRecord (bs : List Nat) (dx dy dz : Int) : List Nat :=
  bs.take 4 ++ encodeU32 (addDelta (readU32 bs 4) dx) ++
    encodeU32 (addDelta (readU32 bs 8) dy) ++
    encodeU32 (addDelta (readU32 bs 12) dz) ++ bs.drop 16

/-- Modelled from the spec: add the origin delta to every placement record's
position field — the records are tightly packed, `recSize` bytes each; a
trailing fragment shorter than one record is left as is. -/
def patchRecords (bs : List Nat) (recSize : Nat) : Nat → Int → Int → Int → List Nat
  | 0, _, _, _ => bs
  | n + 1, dx, dy, dz =>
    patchRecord (bs.take recSize) dx dy dz ++
      patchRecords (bs.drop recSize) recSize n dx dy dz

theorem addDelta_lt (v : Nat) (d : Int) : addDelta v d < 4294967296 := by
  unfold addDelta
  omega

theorem addDelta_zero (v : Nat) (hv : v < 4294967296) : addDelta v 0 = v := by
  unfold addDelta
  omega

theorem readByte_lt (f : File) (hv : bytesValid f = true) (j : Nat) : readByte f j < 256 := by
  unfold readByte
  rcases h : f[j]? with _ | b
  · simp [List.getD_eq_getElem?_getD, h]
  · have hm : b ∈ f := by
      obtain ⟨hlt, he⟩ := List.getElem?_eq_some.mp h
      exact he ▸ List.getElem_mem hlt
    have := (List.all_eq_true.mp hv) b hm
    simp only [decide_eq_true_eq] at this
    simp [List.getD_eq_getElem?_getD, h]
    omega

theorem readU32_lt_of_bytes (f : File) (hb : ∀ j, readByte f j < 256) (i : Nat) :
    readU32 f i < 4294967296 := by
  have h0 := hb i
  have h1 := hb (i + 1)
  have h2 := hb (i + 2)
  have h3 := hb (i + 3)
  unfold readU32
  omega

theorem length_patchRecord (bs : List Nat) (dx dy dz : Int) (h : 16 ≤ bs.length) :
    (patchRecord bs dx dy dz).length = bs.length := by
  simp [patchRecord, encodeU32]
  omega

theorem getD_patchRecord (bs : List Nat) (dx dy dz : Int) (h : 16 ≤ bs.length) (j : Nat) :
    (patchRecord bs dx dy dz).getD j 0 =
      if j < 4 then bs.getD j 0
      else if j < 8 then (encodeU32 (addDelta (readU32 bs 4) dx)).getD (j - 4) 0
      else if j < 12 then (encodeU32 (addDelta (readU32 bs 8) dy)).getD (j - 8) 0
      else if j < 16 then (encodeU32 (addDelta (readU32 bs 12) dz)).getD (j - 12) 0
      else bs.getD j 0 := by
  have hl4 : (bs.take 4).length = 4 := by simp; omega
  unfold patchRecord
  simp only [List.append_assoc]
  by_cases h4 : j < 4
  · rw [getD_append_lt _ _ _ (by omega), getD_take, if_pos h4, if_pos h4]
  · rw [getD_append_ge _ _ _ (by omega), hl4, if_neg h4]
    by_cases h8 : j < 8
    · rw [getD_append_lt _ _ _ (by rw [length_encodeU32]; omega), if_pos h8]
    · rw [getD_append_ge _ _ _ (by rw [length_encodeU32]; omega), length_encodeU32, if_neg h8]
      by_cases h12 : j < 12
      · rw [getD_append_lt _ _ _ (by rw [length_encodeU32]; omega), if_pos h12]
        congr 1
      · rw [getD_append_ge _ _ _ (by rw [length_encodeU32]; omega), length_encodeU32, if_neg h12]
        by_cases h16 : j < 16
        · rw [getD_append_lt _ _ _ (by rw [length_encodeU32]; omega), if_pos h16]
          congr 1
        · rw [getD_append_ge _ _ _ (by rw [length_encodeU32]; omega), length_encodeU32,
            if_neg h16, getD_drop]
          congr 1
          omega

theorem patchRecord_zero (bs : List Nat) (hb : ∀ j, readByte bs j < 256)
    (h : 16 ≤ bs.length) : patchRecord bs 0 0 0 = bs := by
  apply file_ext _ _ (length_patchRecord bs _ _ _ h)
  intro j
  rw [getD_patchRecord bs _ _ _ h j]
  have hz4 : addDelta (readU32 bs 4) 0 = readU32 bs 4 :=
    addDelta_zero _ (readU32_lt_of_bytes bs hb 4)
  have hz8 : addDelta (readU32 bs 8) 0 = readU32 bs 8 :=
    addDelta_zero _ (readU32_lt_of_bytes bs hb 8)
  have hz12 : addDelta (readU32 bs 12) 0 = readU32 bs 12 :=
    addDelta_zero _ (readU32_lt_of_bytes bs hb 12)
  by_cases h4 : j < 4
  · rw [if_pos h4]
  · rw [if_neg h4]
    by_cases h8 : j < 8
    · rw [if_pos h8, hz4]
      have hb4 := hb 4
      have hb5 := hb 5
      have hb6 := hb 6
      have hb7 := hb 7
      unfold readU32 readByte at hb4 hb5 hb6 hb7 ⊢
      unfold encodeU32
      simp [List.getD_eq_getElem?_getD] at hb4 hb5 hb6 hb7
      interval_cases j <;> simp [List.getD_cons_succ, List.getD_cons_zero] <;> omega
    · rw [if_neg h8]
      by_cases h12 : j < 12
      · rw [if_pos h12, hz8]
        have hb4 := hb 8
        have hb5 := hb 9
        have hb6 := hb 10
        have hb7 := hb 11
        unfold readU32 readByte at hb4 hb5 hb6 hb7 ⊢
        unfold encodeU32
        simp [List.getD_eq_getElem?_getD] at hb4 hb5 hb6 hb7
        interval_cases j <;> simp [List.getD_cons_succ, List.getD_cons_zero] <;> omega
      · rw [if_neg h12]
        by_cases h16 : j < 16
        · rw [if_pos h16, hz12]
          have hb4 := hb 12
          have hb5 := hb 13
          have hb6 := hb 14
          have hb7 := hb 15
          unfold readU32 readByte at hb4 hb5 hb6 hb7 ⊢
          unfold encodeU32
          simp [List.getD_eq_getElem?_getD] at hb4 hb5 hb6 hb7
          interval_cases j <;> simp [List.getD_cons_succ, List.getD_cons_zero] <;> omega
        · rw [if_neg h16]

theorem readU32_of_four (u : List Nat) (i w : Nat)
    (h0 : u.getD i 0 = w % 256) (h1 : u.getD (i + 1) 0 = w / 256 % 256)
    (h2 : u.getD (i + 2) 0 = w / 65536 % 256) (h3 : u.getD (i + 3) 0 = w / 16777216 % 256)
    (hw : w < 4294967296) : readU32 u i = w := by
  unfold readU32 readByte
  rw [h0, h1, h2, h3]
  omega

theorem readU32_patchRecord_pos (bs : List Nat) (dx dy dz : Int) (h : 16 ≤ bs.length) :
    readU32 (patchRecord bs dx dy dz) 4 = addDelta (readU32 bs 4) dx ∧
    readU32 (patchRecord bs dx dy dz) 8 = addDelta (readU32 bs 8) dy ∧
    readU32 (patchRecord bs dx dy dz) 12 = addDelta (readU32 bs 12) dz := by
  refine ⟨?_, ?_, ?_⟩
  · refine readU32_of_four _ 4 _ ?_ ?_ ?_ ?_ (addDelta_lt _ _)
    · rw [getD_patchRecord bs dx dy dz h 4, if_neg (by norm_num), if_pos (by norm_num)]
      rfl
    · rw [getD_patchRecord bs dx dy dz h (4 + 1), if_neg (by norm_num), if_pos (by norm_num)]
      rfl
    · rw [getD_patchRecord bs dx dy dz h (4 + 2), if_neg (by norm_num), if_pos (by norm_num)]
      rfl
    · rw [getD_patchRecord bs dx dy dz h (4 + 3), if_neg (by norm_num), if_pos (by norm_num)]
      rfl
  · refine readU32_of_four _ 8 _ ?_ ?_ ?_ ?_ (addDelta_lt _ _)
    · rw [getD_patchRecord bs dx dy dz h 8, if_neg (by norm_num), if_neg (by norm_num),
        if_pos (by norm_num)]
      rfl
    · rw [getD_patchRecord bs dx dy dz h (8 + 1), if_neg (by norm_num), if_neg (by norm_num),
        if_pos (by norm_num)]
      rfl
    · rw [getD_patchRecord bs dx dy dz h (8 + 2), if_neg (by norm_num), if_neg (by norm_num),
        if_pos (by norm_num)]
      rfl
    · rw [getD_patchRecord bs dx dy dz h (8 + 3), if_neg (by norm_num), if_neg (by norm_num),
        if_pos (by norm_num)]
      rfl
  · refine readU32_of_four _ 12 _ ?_ ?_ ?_ ?_ (addDelta_lt _ _)
    · rw [getD_patchRecord bs dx dy dz h 12, if_neg (by norm_num), if_neg (by norm_num),
        if_neg (by norm_num), if_pos (by norm_num)]
      rfl
    · rw [getD_patchRecord bs dx dy dz h (12 + 1), if_neg (by norm_num), if_neg (by norm_num),
        if_neg (by norm_num), if_pos (by norm_num)]
      rfl
    · rw [getD_patchRecord bs dx dy dz h (12 + 2), if_neg (by norm_num), if_neg (by norm_num),
        if_neg (by norm_num), if_pos (by norm_num)]
      rfl
    · rw [getD_patchRecord bs dx dy dz h (12 + 3), if_neg (by norm_num), if_neg (by norm_num),
        if_neg (by norm_num), if_pos (by norm_num)]
      rfl

theorem patchRecord_keeps_rest (bs : List Nat) (dx dy dz : Int) (h : 16 ≤ bs.length) :
    (∀ j, j < 4 → (patchRecord bs dx dy dz).getD j 0 = bs.getD j 0) ∧
    (∀ j, 16 ≤ j → (patchRecord bs dx dy dz).getD j 0 = bs.getD j 0) := by
  constructor
  · intro j hj
    rw [getD_patchRecord bs dx dy dz h j, if_pos hj]
  · intro j hj
    rw [getD_patchRecord bs dx dy dz h j, if_neg (by omega), if_neg (by omega),
      if_neg (by omega), if_neg (by omega)]

theorem patchRecord_idem (bs : List Nat) (h : 16 ≤ bs.length) :
    patchRecord (patchRecord bs 0 0 0) 0 0 0 = patchRecord bs 0 0 0 := by
  have hlen : (patchRecord bs 0 0 0).length = bs.length := length_patchRecord bs 0 0 0 h
  have hlen16 : 16 ≤ (patchRecord bs 0 0 0).length := by omega
  have heff := readU32_patchRecord_pos bs 0 0 0 h
  apply file_ext _ _ (by rw [length_patchRecord _ _ _ _ hlen16, hlen])
  intro j
  rw [getD_patchRecord _ _ _ _ hlen16 j]
  by_cases h4 : j < 4
  · rw [if_pos h4]
  · rw [if_neg h4]
    by_cases h8 : j < 8
    · rw [if_pos h8, heff.1, addDelta_zero _ (addDelta_lt _ _),
        getD_patchRecord _ _ _ _ h j, if_neg h4, if_pos h8]
    · rw [if_neg h8]
      by_cases h12 : j < 12
      · rw [if_pos h12, heff.2.1, addDelta_zero _ (addDelta_lt _ _),
          getD_patchRecord _ _ _ _ h j, if_neg h4, if_neg h8, if_pos h12]
      · rw [if_neg h12]
        by_cases h16 : j < 16
        · rw [if_pos h16, heff.2.2, addDelta_zero _ (addDelta_lt _ _),
            getD_patchRecord _ _ _ _ h j, if_neg h4, if_neg h8, if_neg h12, if_pos h16]
        · rw [if_neg h16]

theorem length_patchRecords (bs : List Nat) (s c : Nat) (dx dy dz : Int)
    (hs : 16 ≤ s) (hc : c * s ≤ bs.length) :
    (patchRecords bs s c dx dy dz).length = bs.length := by
  induction c generalizing bs with
  | zero => rfl
  | succ m ih =>
    have hmul : (m + 1) * s = m * s + s := Nat.succ_mul m s
    have hsb : s ≤ bs.length := by omega
    have hts : (bs.take s).length = s := by simp; omega
    show (patchRecord (bs.take s) dx dy dz ++ patchRecords (bs.drop s) s m dx dy dz).length = _
    rw [List.length_append, length_patchRecord _ _ _ _ (by omega), hts,
      ih (bs.drop s) (by simp; omega)]
    simp
    omega

theorem patchRecords_zero (bs : List Nat) (s c : Nat) (hs : 16 ≤ s)
    (hc : c * s ≤ bs.length) (hb : ∀ j, readByte bs j < 256) :
    patchRecords bs s c 0 0 0 = bs := by
  induction c generalizing bs with
  | zero => rfl
  | succ m ih =>
    have hmul : (m + 1) * s = m * s + s := Nat.succ_mul m s
    have hsb : s ≤ bs.length := by omega
    have hts : (bs.take s).length = s := by simp; omega
    show patchRecord (bs.take s) 0 0 0 ++ patchRecords (bs.drop s) s m 0 0 0 = bs
    rw [patchRecord_zero (bs.take s)
        (by intro j
            unfold readByte
            rw [getD_take]
            split
            · exact hb j
            · omega)
        (by omega),
      ih (bs.drop s)
        (by simp; omega)
        (by intro j
            unfold readByte
            rw [getD_drop]
            exact hb (s + j)),
      List.take_append_drop]

theorem patchRecords_idem (bs : List Nat) (s c : Nat) (hs : 16 ≤ s)
    (hc : c * s ≤ bs.length) :
    patchRecords (patchRecords bs s c 0 0 0) s c 0 0 0 =
      patchRecords bs s c 0 0 0 := by
  induction c generalizing bs with
  | zero => rfl
  | succ m ih =>
    have hmul : (m + 1) * s = m * s + s := Nat.succ_mul m s
    have hsb : s ≤ bs.length := by omega
    have hts : (bs.take s).length = s := by simp; omega
    have hA : (patchRecord (bs.take s) 0 0 0).length = s := by
      rw [length_patchRecord _ _ _ _ (by omega), hts]
    show patchRecord ((patchRecord (bs.take s) 0 0 0 ++
        patchRecords (bs.drop s) s m 0 0 0).take s) 0 0 0 ++
      patchRecords ((patchRecord (bs.take s) 0 0 0 ++
        patchRecords (bs.drop s) s m 0 0 0).drop s) s m 0 0 0 =
      patchRecord (bs.take s) 0 0 0 ++ patchRecords (bs.drop s) s m 0 0 0
    rw [List.take_left' hA, List.drop_left' hA, patchRecord_idem _ (by omega),
      ih (bs.drop s) (by simp; omega)]

theorem patchRecords_record (bs : List Nat) (s c : Nat) (dx dy dz : Int)
    (hs : 16 ≤ s) (hc : c * s ≤ bs.length) (i : Nat) (hi : i < c) :
    ((patchRecords bs s c dx dy dz).drop (i * s)).take s =
      patchRecord ((bs.drop (i * s)).take s) dx dy dz := by
  induction c generalizing bs i with
  | zero => omega
  | succ m ih =>
    have hmul : (m + 1) * s = m * s + s := Nat.succ_mul m s
    have hsb : s ≤ bs.length := by omega
    have hts : (bs.take s).length = s := by simp; omega
    have hA : (patchRecord (bs.take s) dx dy dz).length = s := by
      rw [length_patchRecord _ _ _ _ (by omega), hts]
    show (((patchRecord (bs.take s) dx dy dz ++
        patchRecords (bs.drop s) s m dx dy dz)).drop (i * s)).take s = _
    cases i with
    | zero =>
      simp only [Nat.zero_mul, List.drop_zero]
      rw [List.take_left' hA]
    | succ k =>
      have hks : (k + 1) * s = s + k * s := by ring
      rw [hks, ← List.drop_drop, List.drop_left' hA,
        ih (bs.drop s) (by simp; omega) k (by omega), List.drop_drop]

theorem patchRecords_keeps_tail (bs : List Nat) (s c : Nat) (dx dy dz : Int)
    (hs : 16 ≤ s) (hc : c * s ≤ bs.length) :
    (patchRecords bs s c dx dy dz).drop (c * s) = bs.drop (c * s) := by
  induction c generalizing bs with
  | zero => rfl
  | succ m ih =>
    have hmul : (m + 1) * s = m * s + s := Nat.succ_mul m s
    have hsb : s ≤ bs.length := by omega
    have hts : (bs.take s).length = s := by simp; omega
    have hA : (patchRecord (bs.take s) dx dy dz).length = s := by
      rw [length_patchRecord _ _ _ _ (by omega), hts]
    show (patchRecord (bs.take s) dx dy dz ++
        patchRecords (bs.drop s) s m dx dy dz).drop ((m + 1) * s) = _
    have hks : (m + 1) * s = s + m * s := by ring
    rw [hks, ← List.drop_drop, List.drop_left' hA, ih (bs.drop s) (by simp; omega),
      List.drop_drop]

/-- The numeric configuration struct of `offsetFix.h` (`struct Offsets`);
its float fields are modelled as integers. -/
structure Offsets where
  x : Int
  y : Int
  xf : Int
  zf : Int
  zOff : Int
  wdtXOff : Int
  wdtYOff : Int
  wdtZOff : Int
deriving DecidableEq, Repr

/-- The repair state of `offsetFix.h` (`struct OffsetFixData`): the offset
configuration, the recorded `MDDF`/`MODF` chunk offsets, the recorded `MCNK`
chunk offsets, and the rebuilt index entries.  The C arrays of 256 slots are
modelled as lists holding the recorded prefix (at most 256 entries); an
unrecorded slot reads as zero, like the zero-initialized array slots. -/
structure OffsetFixData where
  offset : Offsets
  offsetMDDF : Nat
  offsetMODF : Nat
  positionsMCNK : List Nat
  positions : List MCINEntry
deriving DecidableEq, Repr

/-- Value initialization `OffsetFixData offData = {};` of the driver: every
numeric field zero, the arrays all zero (empty recorded prefixes).  The
driver's comment offers to set offset values here but no code does. -/
def initOffsetFixData : OffsetFixData :=
  ⟨⟨0, 0, 0, 0, 0, 0, 0, 0⟩, 0, 0, [], []⟩

/-- Modelled from the spec (§4.5 step 3, glossary): the coordinate delta
added to placement positions when the file's declared origin offset changed,
taken from the world-origin offset fields of the configuration. -/
def originDelta (o : Offsets) : Int × Int × Int := (o.wdtXOff, o.wdtYOff, o.wdtZOff)

/-- The failure kinds of the repair pass (spec §7) surfaced through the
driver's try/catch. -/
inductive RepairError
  | TruncatedChunk
  | MissingExpectedChunk
  | OffsetOutOfRange
deriving DecidableEq, Repr

/-- The first 256 terrain chunks of a scan, in encounter order (the format's
row-major order guarantee, §4.2); the fixed-capacity index records no more. -/
def scannedMCNKs (L : List ChunkInfo) : List ChunkInfo :=
  (L.filter (fun c => decide (c.tag = MCNKtag))).take 256

/-- Modelled from the spec (§4.5 step 1, §4.2): scan the file top to bottom
for every terrain (`MCNK`) chunk and record its offset and size in encounter
order in the repair state; a malformed chunk walk fails with
`TruncatedChunk`. -/
def findMCNKs (f : File) (d : OffsetFixData) : Except RepairError OffsetFixData :=
  match scanChunks f with
  | none => .error .TruncatedChunk
  | some L =>
    .ok { d with
      positionsMCNK := (scannedMCNKs L).map (fun c => c.off),
      positions := (scannedMCNKs L).map (fun c => ⟨c.off, c.len, 0, 0⟩) }

/-- Modelled from the spec (§4.5 step 2, §7): scan for the doodad-placement
(`MDDF`) and object-placement (`MODF`) chunks by tag and record their new
offsets; both placement chunks are mandatory, so absence of either is
`MissingExpectedChunk`. -/
def findMDDFandMODF (f : File) (d : OffsetFixData) : Except RepairError OffsetFixData :=
  match scanChunks f with
  | none => .error .TruncatedChunk
  | some L =>
    match L.find? (fun c => decide (c.tag = MDDFtag)),
        L.find? (fun c => decide (c.tag = MODFtag)) with
    | some cd, some cw => .ok { d with offsetMDDF := cd.off, offsetMODF := cw.off }
    | _, _ => .error .MissingExpectedChunk

/-- Modelled from the spec (§4.5 step 4, §4.2 rewrite_into, §7): locate the
index (`MCIN`) chunk and overwrite its fixed-size payload in place with the
256 rebuilt entries — scanned offset and size, old reserved fields.  A
missing index chunk is `MissingExpectedChunk`; an index payload too small
for the 4096-byte table would make the write exceed the chunk's bounds —
`OffsetOutOfRange`, and the file is left unmodified. -/
def fixMCNKs (f : File) (d : OffsetFixData) : Except RepairError File :=
  match scanChunks f with
  | none => .error .TruncatedChunk
  | some L =>
    match L.find? (fun c => decide (c.tag = MCINtag)) with
    | none => .error .MissingExpectedChunk
    | some c =>
      if 4096 ≤ c.len then
        .ok (writeBytes f (c.off + 8)
          (encodeTable (mergeAux d.positions
            (decodeEntriesAux ((f.drop (c.off + 8)).take 4096)) 256)))
      else .error .OffsetOutOfRange

/-- Size in bytes of one doodad placement record (spec §3: uint32 nameIndex,
3×float position, 3×float rotation, float scale, uint32 uniqueId,
uint16 flags). -/
def doodadRecordSize : Nat := 38

/-- Size in bytes of one object placement record (spec §3: uint32 nameIndex,
3×float position, 3×float rotation, 6×float boundingBox, uint32 uniqueId,
uint16 flags). -/
def wmoRecordSize : Nat := 58

/-- Patch every complete placement record of the chunk whose header starts
at `off`: read the payload length from the header, add the delta to the
position fields of the `length / recSize` complete records, and write the
payload back in place. -/
def patchChunkPositions (f : File) (off recSize : Nat) (dx dy dz : Int) : File :=
  writeBytes f (off + 8)
    (patchRecords ((f.drop (off + 8)).take (readU32 f (off + 4))) recSize
      (readU32 f (off + 4) / recSize) dx dy dz)

/-- Modelled from the spec (§4.5 step 3): add the origin delta to every
doodad placement's position; the `MDDF` location was recorded by the scan
phase. -/
def fixDoodads (f : File) (d : OffsetFixData) : Except RepairError File :=
  .ok (patchChunkPositions f d.offsetMDDF doodadRecordSize
    (originDelta d.offset).1 (originDelta d.offset).2.1 (originDelta d.offset).2.2)

/-- Modelled from the spec (§4.5 step 3): add the origin delta to every
object placement's position; the `MODF` location was recorded by the scan
phase. -/
def fixWMOs (f : File) (d : OffsetFixData) : Except RepairError File :=
  .ok (patchChunkPositions f d.offsetMODF wmoRecordSize
    (originDelta d.offset).1 (originDelta d.offset).2.1 (originDelta d.offset).2.2)

/-- The five pipeline steps of the driver, in program order: two scan
(`find`) phases, then three write (`fix`) phases. -/
inductive RepairEvent
  | scanTerrain
  | scanPlacements
  | writeIndex
  | writeDoodads
  | writeWmos
deriving DecidableEq, Repr

/-- The full step order of a successful run. -/
def fullRepairTrace : List RepairEvent :=
  [.scanTerrain, .scanPlacements, .writeIndex, .writeDoodads, .writeWmos]

/-- The driver's try block, in program order: `findMCNKs(zoneFile, offData);
findMDDFandMODF(...); fixMCNKs(...); fixDoodads(...); fixWMOs(...)`, all on
the same read-write stream, starting from the value-initialized state; an
exception aborts the sequence.  The result carries the file as left by the
steps that ran (the in-place semantics of the C++ fstream) and the trace of
steps that ran — a write event is recorded only when that step performed its
write. -/
def runStepsT (f : File) : ((RepairError × File) ⊕ File) × List RepairEvent :=
  match findMCNKs f initOffsetFixData with
  | .error e => (.inl (e, f), [.scanTerrain])
  | .ok d1 =>
    match findMDDFandMODF f d1 with
    | .error e => (.inl (e, f), [.scanTerrain, .scanPlacements])
    | .ok d2 =>
      match fixMCNKs f d2 with
      | .error e => (.inl (e, f), [.scanTerrain, .scanPlacements])
      | .ok f1 =>
        match fixDoodads f1 d2 with
        | .error e => (.inl (e, f1), [.scanTerrain, .scanPlacements, .writeIndex])
        | .ok f2 =>
          match fixWMOs f2 d2 with
          | .error e =>
            (.inl (e, f2), [.scanTerrain, .scanPlacements, .writeIndex, .writeDoodads])
          | .ok f3 => (.inr f3, fullRepairTrace)

/-- The repair pipeline: result of the driver's try block on a file. -/
def runSteps (f : File) : (RepairError × File) ⊕ File := (runStepsT f).1

/-- Observable outcome of one tool invocation: the final bytes of the input
file (`none` when it could not be opened), the bytes written to the output
path (`none` when no output file was produced), the process exit code, and
whether anything was printed to the standard error stream. -/
structure RunResult where
  finalInput : Option File
  output : Option File
  exitCode : Nat
  errOutput : Bool
deriving DecidableEq, Repr

/-- The driver `main` of `src/tools/offsetFix_msvc/main.cpp` on an opened
input (`none` models a file that cannot be opened, which prints to `cerr`
and returns 1 before any processing): a repair error prints to `cerr` and
returns 1 with no output file written; on success the driver copies the
in-place repaired input file byte for byte to the output path
(`outFile << inFile.rdbuf()`) and returns 0. -/
def runOffsetFix : Option File → RunResult
  | none => ⟨none, none, 1, true⟩
  | some f =>
    match runSteps f with
    | .inl (_, g) => ⟨some g, none, 1, true⟩
    | .inr f' => ⟨some f', some f', 0, false⟩

/-- Modelled from the spec (§4.3, §6): the legacy world table's combined
offset-table chunk holds 4096 (= 64×64) uint32 offsets into the legacy
monolithic file, 0 meaning the tile is absent; the conversion driver's
`WdtAlpha::getExistingAdtsNumbers` returns the linear tile numbers of the
existing tiles in row-major order. -/
def getExistingAdtsNumbers (offsets : List Nat) : List Nat :=
  (List.range 4096).filter (fun i => decide (offsets.getD i 0 ≠ 0))

/-- Modelled from the spec (§4.3): `get_tile_byte_range` — a tile's raw
bytes are sliced out of the monolithic legacy blob at the tile's recorded
offset. -/
def getTileBytes (blob : File) (off : Nat) : File := blob.drop off

/-- Output of one conversion run: how many world-table files were written
and the per-tile area files, keyed by linear tile number. -/
structure ConvOutput where
  worldFiles : Nat
  areaFiles : List (Nat × File)
deriving DecidableEq, Repr

/-- The conversion driver `src/tools/fixes/main.cpp`: write the converted
world table once (`testWdt.toFile()`), then loop over the existing tile
numbers (`adtsNums`) and write one area file per existing tile
(`testAdtLk.toFile()`), each decoded at its offset from the main offset
table (`adtsOffsets[adtsNums[currentAdt]]`). -/
def convertRun (offsets : List Nat) (blob : File) : ConvOutput :=
  { worldFiles := 1
    areaFiles := (getExistingAdtsNumbers offsets).map
      (fun n => (n, getTileBytes blob (offsets.getD n 0))) }

/-- Read a little-endian 16-bit field. -/
def readU16 (f : File) (i : Nat) : Nat := readByte f i + 256 * readByte f (i + 1)

/-- Serialize a 16-bit value little-endian. -/
def encodeU16 (v : Nat) : List Nat := [v % 256, v / 256 % 256]

/-- A doodad placement record per spec §3: `{ nameIndex: uint32, position:
3×float, rotation: 3×float, scale: float, uniqueId: uint32, flags: uint16 }`;
the float fields are modelled by their 32-bit on-disk values. -/
structure PlacementRecord where
  nameIndex : Nat
  posX : Nat
  posY : Nat
  posZ : Nat
  rotX : Nat
  rotY : Nat
  rotZ : Nat
  scale : Nat
  uniqueId : Nat
  flags : Nat
deriving DecidableEq, Repr

/-- Decode a 38-byte doodad placement record (spec §3 layout). -/
def decodeDoodadRecord (bs : List Nat) : PlacementRecord :=
  ⟨readU32 bs 0, readU32 bs 4, readU32 bs 8, readU32 bs 12, readU32 bs 16,
   readU32 bs 20, readU32 bs 24, readU32 bs 28, readU32 bs 32, readU16 bs 36⟩

/-- Serialize a doodad placement record back to its 38-byte layout. -/
def encodeDoodadRecord (r : PlacementRecord) : List Nat :=
  encodeU32 r.nameIndex ++ encodeU32 r.posX ++ encodeU32 r.posY ++ encodeU32 r.posZ ++
    encodeU32 r.rotX ++ encodeU32 r.rotY ++ encodeU32 r.rotZ ++ encodeU32 r.scale ++
    encodeU32 r.uniqueId ++ encodeU16 r.flags

/-- Modelled from the spec (§4.4): the generation codec converts one
placement record by re-indexing its name reference (when the legacy and
target generations use different referencing schemes) and copying the
numeric fields — position, rotation — verbatim; no coordinate-system
transform is performed by this layer. -/
def convertDoodadRecord (reindex : Nat → Nat) (bs : List Nat) : List Nat :=
  encodeDoodadRecord
    { decodeDoodadRecord bs with nameIndex := reindex (decodeDoodadRecord bs).nameIndex }

/-- An object placement record per spec §3 (the object variant of
`PlacementRecord`): `{ nameIndex: uint32, position: 3×float, rotation:
3×float, boundingBox: 6×float, uniqueId: uint32, flags: uint16 }`; the
float fields are modelled by their 32-bit on-disk values. -/
structure WmoRecord where
  nameIndex : Nat
  posX : Nat
  posY : Nat
  posZ : Nat
  rotX : Nat
  rotY : Nat
  rotZ : Nat
  bboxA : Nat
  bboxB : Nat
  bboxC : Nat
  bboxD : Nat
  bboxE : Nat
  bboxF : Nat
  uniqueId : Nat
  flags : Nat
deriving DecidableEq, Repr

/-- Decode a 58-byte object placement record (spec §3 layout). -/
def decodeWmoRecord (bs : List Nat) : WmoRecord :=
  ⟨readU32 bs 0, readU32 bs 4, readU32 bs 8, readU32 bs 12, readU32 bs 16,
   readU32 bs 20, readU32 bs 24, readU32 bs 28, readU32 bs 32, readU32 bs 36,
   readU32 bs 40, readU32 bs 44, readU32 bs 48, readU32 bs 52, readU16 bs 56⟩

/-- Serialize an object placement record back to its 58-byte layout. -/
def encodeWmoRecord (r : WmoRecord) : List Nat :=
  encodeU32 r.nameIndex ++ encodeU32 r.posX ++ encodeU32 r.posY ++ encodeU32 r.posZ ++
    encodeU32 r.rotX ++ encodeU32 r.rotY ++ encodeU32 r.rotZ ++
    encodeU32 r.bboxA ++ encodeU32 r.bboxB ++ encodeU32 r.bboxC ++
    encodeU32 r.bboxD ++ encodeU32 r.bboxE ++ encodeU32 r.bboxF ++
    encodeU32 r.uniqueId ++ encodeU16 r.flags

/-- Modelled from the spec (§4.4): the generation codec converts one object
placement record like a doodad one — the name reference is re-indexed (when
the legacy and target generations use different referencing schemes) and the
numeric fields — position, rotation, bounding box — are copied verbatim; no
coordinate-system transform is performed by this layer. -/
def convertWmoRecord (reindex : Nat → Nat) (bs : List Nat) : List Nat :=
  encodeWmoRecord
    { decodeWmoRecord bs with nameIndex := reindex (decodeWmoRecord bs).nameIndex }

theorem runSteps_error (f g : File) (e : RepairError) (h : runSteps f = .inl (e, g)) :
    g = f := by
  unfold runSteps runStepsT findMCNKs findMDDFandMODF fixMCNKs fixDoodads fixWMOs at h
  rcases hscan : scanChunks f with _ | L <;> rw [hscan] at h <;> dsimp only at h
  · simp only [Sum.inl.injEq, Prod.mk.injEq] at h
    exact h.2.symm
  · rcases hfD : L.find? (fun c => decide (c.tag = MDDFtag)) with _ | cD <;> rw [hfD] at h
    · rcases hfW : L.find? (fun c => decide (c.tag = MODFtag)) with _ | cW <;>
        rw [hfW] at h <;> dsimp only at h <;>
        simp only [Sum.inl.injEq, Prod.mk.injEq] at h <;> exact h.2.symm
    · rcases hfW : L.find? (fun c => decide (c.tag = MODFtag)) with _ | cW <;>
        rw [hfW] at h <;> dsimp only at h
      · simp only [Sum.inl.injEq, Prod.mk.injEq] at h
        exact h.2.symm
      · rcases hfI : L.find? (fun c => decide (c.tag = MCINtag)) with _ | cI <;>
          rw [hfI] at h <;> dsimp only at h
        · simp only [Sum.inl.injEq, Prod.mk.injEq] at h
          exact h.2.symm
        · by_cases hlen : 4096 ≤ cI.len
          · rw [if_pos hlen] at h
            dsimp only at h
            exact Sum.noConfusion h
          · rw [if_neg hlen] at h
            dsimp only at h
            simp only [Sum.inl.injEq, Prod.mk.injEq] at h
            exact h.2.symm

theorem runSteps_success (f f' : File) (h : runSteps f = .inr f') :
    ∃ L cD cW cI,
      scanChunks f = some L ∧
      L.find? (fun c => decide (c.tag = MDDFtag)) = some cD ∧
      L.find? (fun c => decide (c.tag = MODFtag)) = some cW ∧
      L.find? (fun c => decide (c.tag = MCINtag)) = some cI ∧
      4096 ≤ cI.len ∧
      f' = patchChunkPositions
             (patchChunkPositions
               (writeBytes f (cI.off + 8)
                 (encodeTable (mergeAux
                   ((scannedMCNKs L).map (fun c => ⟨c.off, c.len, 0, 0⟩))
                   (decodeEntriesAux ((f.drop (cI.off + 8)).take 4096)) 256)))
               cD.off doodadRecordSize 0 0 0)
             cW.off wmoRecordSize 0 0 0 := by
  unfold runSteps runStepsT findMCNKs findMDDFandMODF fixMCNKs fixDoodads fixWMOs at h
  rcases hscan : scanChunks f with _ | L <;> rw [hscan] at h <;> dsimp only at h
  · exact Sum.noConfusion h
  · rcases hfD : L.find? (fun c => decide (c.tag = MDDFtag)) with _ | cD <;> rw [hfD] at h
    · rcases hfW : L.find? (fun c => decide (c.tag = MODFtag)) with _ | cW <;>
        rw [hfW] at h <;> dsimp only at h <;> exact Sum.noConfusion h
    · rcases hfW : L.find? (fun c => decide (c.tag = MODFtag)) with _ | cW <;>
        rw [hfW] at h <;> dsimp only at h
      · exact Sum.noConfusion h
      · rcases hfI : L.find? (fun c => decide (c.tag = MCINtag)) with _ | cI <;>
          rw [hfI] at h <;> dsimp only at h
        · exact Sum.noConfusion h
        · by_cases hlen : 4096 ≤ cI.len
          · rw [if_pos hlen] at h
            dsimp only at h
            simp only [Sum.inr.injEq] at h
            exact ⟨L, cD, cW, cI, rfl, hfD, hfW, hfI, hlen, h.symm⟩
          · rw [if_neg hlen] at h
            dsimp only at h
            exact Sum.noConfusion h

theorem getD_drop_take (l : List Nat) (a k j : Nat) :
    ((l.drop a).take k).getD j 0 = if j < k then l.getD (a + j) 0 else 0 := by
  rw [getD_take, getD_drop]

theorem length_drop_take (l : List Nat) (a k : Nat) (h : a + k ≤ l.length) :
    ((l.drop a).take k).length = k := by
  simp
  omega

theorem getD_oob (l : List Nat) (j : Nat) (h : l.length ≤ j) : l.getD j 0 = 0 := by
  rw [List.getD_eq_getElem?_getD, List.getElem?_eq_none h]
  rfl

theorem drop_take_writeBytes_self (f : File) (a : Nat) (bs : List Nat)
    (h : a + bs.length ≤ f.length) :
    ((writeBytes f a bs).drop a).take bs.length = bs := by
  apply file_ext
  · rw [length_drop_take _ _ _ (by rw [length_writeBytes f a bs h]; omega)]
  · intro j
    rw [getD_drop_take]
    by_cases hj : j < bs.length
    · rw [if_pos hj, getD_writeBytes f a bs h, if_pos (by omega)]
      congr 1
      omega
    · rw [if_neg hj, getD_oob bs j (by omega)]

theorem drop_take_writeBytes_outside (f : File) (a : Nat) (bs : List Nat)
    (h : a + bs.length ≤ f.length) (b k : Nat)
    (hdis : b + k ≤ a ∨ a + bs.length ≤ b) :
    ((writeBytes f a bs).drop b).take k = (f.drop b).take k := by
  apply file_ext
  · rw [List.length_take, List.length_take, List.length_drop, List.length_drop,
      length_writeBytes f a bs h]
  · intro j
    rw [getD_drop_take, getD_drop_take]
    by_cases hj : j < k
    · rw [if_pos hj, if_pos hj, getD_writeBytes f a bs h, if_neg (by omega)]
    · rw [if_neg hj, if_neg hj]

/-- Writing back the bytes a region already holds is the identity. -/
theorem writeBytes_of_region (f : File) (a : Nat) (bs : List Nat)
    (h : a + bs.length ≤ f.length) (hreg : (f.drop a).take bs.length = bs) :
    writeBytes f a bs = f := by
  apply writeBytes_same f a bs h
  intro j hj
  conv_lhs => rw [← hreg]
  rw [getD_drop_take, if_pos hj]

theorem find?_tag_mem (L : List ChunkInfo) (t : List Nat) (c : ChunkInfo)
    (h : L.find? (fun k => decide (k.tag = t)) = some c) : c ∈ L ∧ c.tag = t := by
  refine ⟨List.mem_of_find?_eq_some h, ?_⟩
  have := List.find?_some h
  simpa using this

theorem scanChunks_facts (f : File) (L : List ChunkInfo) (h : scanChunks f = some L) :
    ∀ c ∈ L, c.off + 8 + c.len ≤ f.length ∧ readU32 f (c.off + 4) = c.len := by
  intro c hc
  have := scanAux_mem_facts f f.length 0 L h c hc
  exact ⟨this.2.1, this.2.2.1⟩

theorem scanChunks_sep (f : File) (L : List ChunkInfo) (h : scanChunks f = some L) :
    ∀ c ∈ L, ∀ d ∈ L, c = d ∨ c.off + 8 + c.len ≤ d.off ∨ d.off + 8 + d.len ≤ c.off :=
  scanAux_sep f f.length 0 L h

/-- A header field read is unaffected by a write inside any scanned chunk's
payload. -/
theorem header_read_after_payload_write (f : File) (L : List ChunkInfo)
    (hL : scanChunks f = some L) (c d : ChunkInfo) (hc : c ∈ L) (hd : d ∈ L)
    (a : Nat) (bs : List Nat) (ha : c.off + 8 ≤ a)
    (hb : a + bs.length ≤ c.off + 8 + c.len) :
    readU32 (writeBytes f a bs) (d.off + 4) = readU32 f (d.off + 4) := by
  have hcb := scanChunks_facts f L hL c hc
  have hdb := scanChunks_facts f L hL d hd
  apply readU32_writeBytes_outside f a bs (by omega)
  rcases scanChunks_sep f L hL c hc d hd with he | hlt | hgt
  · subst he
    left
    omega
  · right
    omega
  · left
    omega

/-- The payload region of one chunk is unaffected by a write inside the
payload of a different scanned chunk. -/
theorem payload_read_after_other_write (f : File) (L : List ChunkInfo)
    (hL : scanChunks f = some L) (c d : ChunkInfo) (hc : c ∈ L) (hd : d ∈ L)
    (hne : c ≠ d) (a : Nat) (bs : List Nat) (ha : c.off + 8 ≤ a)
    (hb : a + bs.length ≤ c.off + 8 + c.len) (k : Nat) (hk : k ≤ d.len) :
    ((writeBytes f a bs).drop (d.off + 8)).take k = (f.drop (d.off + 8)).take k := by
  have hcb := scanChunks_facts f L hL c hc
  have hdb := scanChunks_facts f L hL d hd
  apply drop_take_writeBytes_outside f a bs (by omega)
  rcases scanChunks_sep f L hL c hc d hd with he | hlt | hgt
  · exact absurd he hne
  · right
    omega
  · left
    omega

theorem getD_lt_of_all (l : List Nat) (hall : ∀ b ∈ l, b < 256) (j : Nat) :
    l.getD j 0 < 256 := by
  rcases h : l[j]? with _ | b
  · simp [List.getD_eq_getElem?_getD, h]
  · have hm : b ∈ l := by
      obtain ⟨hlt, he⟩ := List.getElem?_eq_some.mp h
      exact he ▸ List.getElem_mem hlt
    have := hall b hm
    simp [List.getD_eq_getElem?_getD, h]
    omega

theorem mem_encodeU32 (v b : Nat) (h : b ∈ encodeU32 v) : b < 256 := by
  simp [encodeU32] at h
  rcases h with h | h | h | h <;> subst h <;> exact Nat.mod_lt _ (by omega)

theorem mem_encodeTable (es : List MCINEntry) (b : Nat) (h : b ∈ encodeTable es) :
    b < 256 := by
  unfold encodeTable at h
  rw [List.mem_flatten] at h
  obtain ⟨l, hl, hb⟩ := h
  obtain ⟨e, _, he⟩ := List.mem_map.mp hl
  rw [← he] at hb
  unfold encodeEntry at hb
  simp only [List.mem_append] at hb
  rcases hb with ((hb | hb) | hb) | hb <;> exact mem_encodeU32 _ _ hb

/-- Bytes of the file after the index rewrite are still genuine bytes. -/
theorem readByte_lt_writeBytes (f : File) (a : Nat) (bs : List Nat)
    (h : a + bs.length ≤ f.length)
    (hf : ∀ j, readByte f j < 256) (hbs : ∀ b ∈ bs, b < 256) (j : Nat) :
    readByte (writeBytes f a bs) j < 256 := by
  unfold readByte
  rw [getD_writeBytes f a bs h j]
  split
  · exact getD_lt_of_all bs hbs _
  · exact hf j

theorem encodeTable_remerge (sc olds : List MCINEntry) :
    encodeTable (mergeAux sc (decodeEntriesAux (encodeTable (mergeAux sc olds 256))) 256) =
      encodeTable (mergeAux sc olds 256) := by
  rw [decodeEntriesAux_encodeTable, encodeTable_merge_canon]

theorem length_encodeTable_merge (sc olds : List MCINEntry) :
    (encodeTable (mergeAux sc olds 256)).length = 4096 := by
  rw [length_encodeTable, length_mergeAux]

theorem tags_distinct_ID : MCINtag ≠ MDDFtag := by decide

theorem tags_distinct_IW : MCINtag ≠ MODFtag := by decide

theorem tags_distinct_DW : MDDFtag ≠ MODFtag := by decide

/-- A successful repair leaves a file on which the repair pass is a fixed
point: the scan finds the same chunks, the rebuilt index re-serializes to
the bytes already in place, and re-adding the zero origin delta rewrites the
position fields to the canonical bytes they already hold. -/
theorem runSteps_fixpoint (f f' : File) (h : runSteps f = .inr f') :
    runSteps f' = .inr f' := by
  obtain ⟨L, cD, cW, cI, hscan, hfD, hfW, hfI, hlen, hf'⟩ := runSteps_success f f' h
  obtain ⟨hcDmem, hcDtag⟩ := find?_tag_mem _ _ _ hfD
  obtain ⟨hcWmem, hcWtag⟩ := find?_tag_mem _ _ _ hfW
  obtain ⟨hcImem, hcItag⟩ := find?_tag_mem _ _ _ hfI
  have hID : cI ≠ cD := by
    intro he
    rw [he, hcDtag] at hcItag
    exact absurd hcItag tags_distinct_ID.symm
  have hIW : cI ≠ cW := by
    intro he
    rw [he, hcWtag] at hcItag
    exact absurd hcItag tags_distinct_IW.symm
  have hDW : cD ≠ cW := by
    intro he
    rw [he, hcWtag] at hcDtag
    exact absurd hcDtag tags_distinct_DW.symm
  have hbI := scanChunks_facts f L hscan cI hcImem
  have hbD := scanChunks_facts f L hscan cD hcDmem
  have hbW := scanChunks_facts f L hscan cW hcWmem
  set sc := (scannedMCNKs L).map
    (fun c => (⟨c.off, c.len, 0, 0⟩ : MCINEntry)) with hsc
  set tI := encodeTable (mergeAux sc
    (decodeEntriesAux ((f.drop (cI.off + 8)).take 4096)) 256) with htI
  have htIlen : tI.length = 4096 := length_encodeTable_merge _ _
  set f1 := writeBytes f (cI.off + 8) tI with hf1
  have hw1 : cI.off + 8 + tI.length ≤ f.length := by
    rw [htIlen]
    omega
  have hlen1 : f1.length = f.length := length_writeBytes f _ tI hw1
  have hscan1 : scanChunks f1 = some L :=
    scanChunks_writeBytes f L cI hscan hcImem _ tI (Nat.le_refl _) (by omega)
  have hlenD1 : readU32 f1 (cD.off + 4) = cD.len := by
    rw [hf1, header_read_after_payload_write f L hscan cI cD hcImem hcDmem _ tI
      (Nat.le_refl _) (by omega), hbD.2]
  set pD := (f1.drop (cD.off + 8)).take cD.len with hpD
  have hpDf : pD = (f.drop (cD.off + 8)).take cD.len := by
    rw [hpD, hf1, payload_read_after_other_write f L hscan cI cD hcImem hcDmem hID _ tI
      (Nat.le_refl _) (by omega) cD.len (Nat.le_refl _)]
  have hpDlen : pD.length = cD.len := by
    rw [hpDf]
    exact length_drop_take f _ _ (by omega)
  set tD := patchRecords pD 38 (cD.len / 38) 0 0 0 with htD
  have htDlen : tD.length = cD.len := by
    rw [htD, length_patchRecords pD 38 (cD.len / 38) 0 0 0 (by norm_num)
      (by rw [hpDlen]; exact Nat.div_mul_le_self _ _), hpDlen]
  have hstep2 : patchChunkPositions f1 cD.off doodadRecordSize 0 0 0 =
      writeBytes f1 (cD.off + 8) tD := by
    unfold patchChunkPositions doodadRecordSize
    rw [hlenD1, ← hpD, ← htD]
  set f2 := writeBytes f1 (cD.off + 8) tD with hf2
  have hw2 : cD.off + 8 + tD.length ≤ f1.length := by
    rw [htDlen, hlen1]
    omega
  have hlen2 : f2.length = f.length := by
    rw [hf2, length_writeBytes f1 _ tD hw2, hlen1]
  have hscan2 : scanChunks f2 = some L :=
    scanChunks_writeBytes f1 L cD hscan1 hcDmem _ tD (Nat.le_refl _) (by omega)
  have hlenW2 : readU32 f2 (cW.off + 4) = cW.len := by
    rw [hf2, header_read_after_payload_write f1 L hscan1 cD cW hcDmem hcWmem _ tD
      (Nat.le_refl _) (by omega), hf1,
      header_read_after_payload_write f L hscan cI cW hcImem hcWmem _ tI
      (Nat.le_refl _) (by omega), hbW.2]
  set pW := (f2.drop (cW.off + 8)).take cW.len with hpW
  have hpWf : pW = (f.drop (cW.off + 8)).take cW.len := by
    rw [hpW, hf2, payload_read_after_other_write f1 L hscan1 cD cW hcDmem hcWmem hDW _ tD
      (Nat.le_refl _) (by omega) cW.len (Nat.le_refl _), hf1,
      payload_read_after_other_write f L hscan cI cW hcImem hcWmem hIW _ tI
      (Nat.le_refl _) (by omega) cW.len (Nat.le_refl _)]
  have hpWlen : pW.length = cW.len := by
    rw [hpWf]
    exact length_drop_take f _ _ (by omega)
  set tW := patchRecords pW 58 (cW.len / 58) 0 0 0 with htW
  have htWlen : tW.length = cW.len := by
    rw [htW, length_patchRecords pW 58 (cW.len / 58) 0 0 0 (by norm_num)
      (by rw [hpWlen]; exact Nat.div_mul_le_self _ _), hpWlen]
  have hstep3 : patchChunkPositions f2 cW.off wmoRecordSize 0 0 0 =
      writeBytes f2 (cW.off + 8) tW := by
    unfold patchChunkPositions wmoRecordSize
    rw [hlenW2, ← hpW, ← htW]
  set f3 := writeBytes f2 (cW.off + 8) tW with hf3
  have hw3 : cW.off + 8 + tW.length ≤ f2.length := by
    rw [htWlen, hlen2]
    omega
  have hlen3 : f3.length = f.length := by
    rw [hf3, length_writeBytes f2 _ tW hw3, hlen2]
  have hscan3 : scanChunks f3 = some L :=
    scanChunks_writeBytes f2 L cW hscan2 hcWmem _ tW (Nat.le_refl _) (by omega)
  have hff3 : f' = f3 := by
    rw [hf', hstep2, hstep3]
  have hfacts3 := scanChunks_facts f3 L hscan3
  have hregI : (f3.drop (cI.off + 8)).take 4096 = tI := by
    rw [hf3, payload_read_after_other_write f2 L hscan2 cW cI hcWmem hcImem
      (Ne.symm hIW) _ tW (Nat.le_refl _) (by omega) 4096 hlen,
      hf2, payload_read_after_other_write f1 L hscan1 cD cI hcDmem hcImem
      (Ne.symm hID) _ tD (Nat.le_refl _) (by omega) 4096 hlen,
      hf1, ← htIlen, drop_take_writeBytes_self f _ tI hw1]
  have hregD3 : (f3.drop (cD.off + 8)).take cD.len = tD := by
    rw [hf3, payload_read_after_other_write f2 L hscan2 cW cD hcWmem hcDmem
      (Ne.symm hDW) _ tW (Nat.le_refl _) (by omega) cD.len (Nat.le_refl _),
      hf2, ← htDlen, drop_take_writeBytes_self f1 _ tD hw2]
  have hregW3 : (f3.drop (cW.off + 8)).take cW.len = tW := by
    rw [hf3, ← htWlen, drop_take_writeBytes_self f2 _ tW hw3]
  have hpatchD : patchRecords tD 38 (cD.len / 38) 0 0 0 = tD := by
    rw [htD]
    exact patchRecords_idem pD 38 (cD.len / 38) (by norm_num)
      (by rw [hpDlen]; exact Nat.div_mul_le_self _ _)
  have hpatchW : patchRecords tW 58 (cW.len / 58) 0 0 0 = tW := by
    rw [htW]
    exact patchRecords_idem pW 58 (cW.len / 58) (by norm_num)
      (by rw [hpWlen]; exact Nat.div_mul_le_self _ _)
  have hfixI3 : writeBytes f3 (cI.off + 8)
      (encodeTable (mergeAux sc
        (decodeEntriesAux ((f3.drop (cI.off + 8)).take 4096)) 256)) = f3 := by
    rw [hregI, htI, encodeTable_remerge, ← htI]
    apply writeBytes_of_region f3 _ tI (by rw [htIlen, hlen3]; omega)
    rw [htIlen]
    exact hregI
  have hfixD3 : patchChunkPositions f3 cD.off doodadRecordSize 0 0 0 = f3 := by
    have hl3 : readU32 f3 (cD.off + 4) = cD.len := (hfacts3 cD hcDmem).2
    unfold patchChunkPositions doodadRecordSize
    rw [hl3, hregD3, hpatchD]
    apply writeBytes_of_region f3 _ tD (by rw [htDlen, hlen3]; omega)
    rw [htDlen]
    exact hregD3
  have hfixW3 : patchChunkPositions f3 cW.off wmoRecordSize 0 0 0 = f3 := by
    have hl3 : readU32 f3 (cW.off + 4) = cW.len := (hfacts3 cW hcWmem).2
    unfold patchChunkPositions wmoRecordSize
    rw [hl3, hregW3, hpatchW]
    apply writeBytes_of_region f3 _ tW (by rw [htWlen, hlen3]; omega)
    rw [htWlen]
    exact hregW3
  rw [hff3]
  unfold runSteps runStepsT findMCNKs findMDDFandMODF fixMCNKs fixDoodads fixWMOs
  rw [hscan3]
  dsimp only
  rw [hfD, hfW, hfI]
  dsimp only
  rw [if_pos hlen]
  dsimp only [originDelta, initOffsetFixData]
  rw [← hsc, hfixI3, hfixD3, hfixW3]

/-- On a file of genuine bytes, a successful repair run is exactly the index
rewrite: the zero origin delta makes both placement patches write back the
bytes already in place. -/
theorem runSteps_success_valid (f f' : File) (hv : bytesValid f = true)
    (h : runSteps f = .inr f') :
    ∃ L cI, scanChunks f = some L ∧
      L.find? (fun c => decide (c.tag = MCINtag)) = some cI ∧ 4096 ≤ cI.len ∧
      f' = writeBytes f (cI.off + 8)
        (encodeTable (mergeAux
          ((scannedMCNKs L).map (fun c => (⟨c.off, c.len, 0, 0⟩ : MCINEntry)))
          (decodeEntriesAux ((f.drop (cI.off + 8)).take 4096)) 256)) := by
  obtain ⟨L, cD, cW, cI, hscan, hfD, hfW, hfI, hlen, hf'⟩ := runSteps_success f f' h
  obtain ⟨hcDmem, hcDtag⟩ := find?_tag_mem _ _ _ hfD
  obtain ⟨hcWmem, hcWtag⟩ := find?_tag_mem _ _ _ hfW
  obtain ⟨hcImem, hcItag⟩ := find?_tag_mem _ _ _ hfI
  have hID : cI ≠ cD := by
    intro he
    rw [he, hcDtag] at hcItag
    exact absurd hcItag tags_distinct_ID.symm
  have hbI := scanChunks_facts f L hscan cI hcImem
  have hbD := scanChunks_facts f L hscan cD hcDmem
  have hbW := scanChunks_facts f L hscan cW hcWmem
  set sc := (scannedMCNKs L).map
    (fun c => (⟨c.off, c.len, 0, 0⟩ : MCINEntry)) with hsc
  set tI := encodeTable (mergeAux sc
    (decodeEntriesAux ((f.drop (cI.off + 8)).take 4096)) 256) with htI
  have htIlen : tI.length = 4096 := length_encodeTable_merge _ _
  set f1 := writeBytes f (cI.off + 8) tI with hf1
  have hw1 : cI.off + 8 + tI.length ≤ f.length := by omega
  have hlen1 : f1.length = f.length := length_writeBytes f _ tI hw1
  have hscan1 : scanChunks f1 = some L :=
    scanChunks_writeBytes f L cI hscan hcImem _ tI (Nat.le_refl _) (by omega)
  have hb1 : ∀ j, readByte f1 j < 256 := by
    intro j
    rw [hf1]
    exact readByte_lt_writeBytes f _ tI hw1 (readByte_lt f hv) (mem_encodeTable _) j
  have hlenD1 : readU32 f1 (cD.off + 4) = cD.len := by
    rw [hf1, header_read_after_payload_write f L hscan cI cD hcImem hcDmem _ tI
      (Nat.le_refl _) (by omega), hbD.2]
  have hfixD1 : patchChunkPositions f1 cD.off doodadRecordSize 0 0 0 = f1 := by
    unfold patchChunkPositions doodadRecordSize
    rw [hlenD1]
    have hplen : ((f1.drop (cD.off + 8)).take cD.len).length = cD.len :=
      length_drop_take f1 _ _ (by omega)
    rw [patchRecords_zero _ 38 (cD.len / 38) (by norm_num)
      (by rw [hplen]; exact Nat.div_mul_le_self _ _)
      (by intro j
          unfold readByte
          rw [getD_drop_take]
          split
          · exact hb1 _
          · omega)]
    apply writeBytes_of_region f1 _ _ (by rw [hplen]; omega)
    rw [hplen]
  have hlenW1 : readU32 f1 (cW.off + 4) = cW.len := by
    rw [hf1, header_read_after_payload_write f L hscan cI cW hcImem hcWmem _ tI
      (Nat.le_refl _) (by omega), hbW.2]
  have hfixW1 : patchChunkPositions f1 cW.off wmoRecordSize 0 0 0 = f1 := by
    unfold patchChunkPositions wmoRecordSize
    rw [hlenW1]
    have hplen : ((f1.drop (cW.off + 8)).take cW.len).length = cW.len :=
      length_drop_take f1 _ _ (by omega)
    rw [patchRecords_zero _ 58 (cW.len / 58) (by norm_num)
      (by rw [hplen]; exact Nat.div_mul_le_self _ _)
      (by intro j
          unfold readByte
          rw [getD_drop_take]
          split
          · exact hb1 _
          · omega)]
    apply writeBytes_of_region f1 _ _ (by rw [hplen]; omega)
    rw [hplen]
  refine ⟨L, cI, hscan, hfI, hlen, ?_⟩
  rw [hf', hfixD1, hfixW1, hf1]

theorem count_getExistingAdtsNumbers (offsets : List Nat) (n : Nat) :
    (getExistingAdtsNumbers offsets).count n =
      if offsets.getD n 0 ≠ 0 ∧ n < 4096 then 1 else 0 := by
  have hnd : (getExistingAdtsNumbers offsets).Nodup := (List.nodup_range 4096).filter _
  have hmem : n ∈ getExistingAdtsNumbers offsets ↔ offsets.getD n 0 ≠ 0 ∧ n < 4096 := by
    unfold getExistingAdtsNumbers
    rw [List.mem_filter, List.mem_range]
    simp [and_comm]
  rw [List.count_eq_of_nodup hnd]
  by_cases hc : offsets.getD n 0 ≠ 0 ∧ n < 4096
  · rw [if_pos hc, if_pos (hmem.mpr hc)]
  · rw [if_neg hc, if_neg (fun hm => hc (hmem.mp hm))]

theorem readU32_peel4 (x rest : List Nat) (hx : x.length = 4) (i : Nat) (hi : 4 ≤ i) :
    readU32 (x ++ rest) i = readU32 rest (i - 4) := by
  unfold readU32 readByte
  rw [getD_append_ge _ _ _ (by omega), getD_append_ge _ _ _ (by omega),
    getD_append_ge _ _ _ (by omega), getD_append_ge _ _ _ (by omega), hx]
  have e1 : i - 4 + 1 = i + 1 - 4 := by omega
  have e2 : i - 4 + 2 = i + 2 - 4 := by omega
  have e3 : i - 4 + 3 = i + 3 - 4 := by omega
  rw [e1, e2, e3]

theorem readU32_encodeDoodad_pos_rot (r : PlacementRecord) :
    readU32 (encodeDoodadRecord r) 4 = r.posX % 4294967296 ∧
    readU32 (encodeDoodadRecord r) 8 = r.posY % 4294967296 ∧
    readU32 (encodeDoodadRecord r) 12 = r.posZ % 4294967296 ∧
    readU32 (encodeDoodadRecord r) 16 = r.rotX % 4294967296 ∧
    readU32 (encodeDoodadRecord r) 20 = r.rotY % 4294967296 ∧
    readU32 (encodeDoodadRecord r) 24 = r.rotZ % 4294967296 := by
  unfold encodeDoodadRecord
  simp only [List.append_assoc]
  refine ⟨?_, ?_, ?_, ?_, ?_, ?_⟩
  · rw [readU32_peel4 _ _ (length_encodeU32 _) 4 (by norm_num),
      show (4 : Nat) - 4 = 0 from rfl, readU32_encodeU32]
  · rw [readU32_peel4 _ _ (length_encodeU32 _) 8 (by norm_num),
      show (8 : Nat) - 4 = 4 from rfl,
      readU32_peel4 _ _ (length_encodeU32 _) 4 (by norm_num),
      show (4 : Nat) - 4 = 0 from rfl, readU32_encodeU32]
  · rw [readU32_peel4 _ _ (length_encodeU32 _) 12 (by norm_num),
      show (12 : Nat) - 4 = 8 from rfl,
      readU32_peel4 _ _ (length_encodeU32 _) 8 (by norm_num),
      show (8 : Nat) - 4 = 4 from rfl,
      readU32_peel4 _ _ (length_encodeU32 _) 4 (by norm_num),
      show (4 : Nat) - 4 = 0 from rfl, readU32_encodeU32]
  · rw [readU32_peel4 _ _ (length_encodeU32 _) 16 (by norm_num),
      show (16 : Nat) - 4 = 12 from rfl,
      readU32_peel4 _ _ (length_encodeU32 _) 12 (by norm_num),
      show (12 : Nat) - 4 = 8 from rfl,
      readU32_peel4 _ _ (length_encodeU32 _) 8 (by norm_num),
      show (8 : Nat) - 4 = 4 from rfl,
      readU32_peel4 _ _ (length_encodeU32 _) 4 (by norm_num),
      show (4 : Nat) - 4 = 0 from rfl, readU32_encodeU32]
  · rw [readU32_peel4 _ _ (length_encodeU32 _) 20 (by norm_num),
      show (20 : Nat) - 4 = 16 from rfl,
      readU32_peel4 _ _ (length_encodeU32 _) 16 (by norm_num),
      show (16 : Nat) - 4 = 12 from rfl,
      readU32_peel4 _ _ (length_encodeU32 _) 12 (by norm_num),
      show (12 : Nat) - 4 = 8 from rfl,
      readU32_peel4 _ _ (length_encodeU32 _) 8 (by norm_num),
      show (8 : Nat) - 4 = 4 from rfl,
      readU32_peel4 _ _ (length_encodeU32 _) 4 (by norm_num),
      show (4 : Nat) - 4 = 0 from rfl, readU32_encodeU32]
  · rw [readU32_peel4 _ _ (length_encodeU32 _) 24 (by norm_num),
      show (24 : Nat) - 4 = 20 from rfl,
      readU32_peel4 _ _ (length_encodeU32 _) 20 (by norm_num),
      show (20 : Nat) - 4 = 16 from rfl,
      readU32_peel4 _ _ (length_encodeU32 _) 16 (by norm_num),
      show (16 : Nat) - 4 = 12 from rfl,
      readU32_peel4 _ _ (length_encodeU32 _) 12 (by norm_num),
      show (12 : Nat) - 4 = 8 from rfl,
      readU32_peel4 _ _ (length_encodeU32 _) 8 (by norm_num),
      show (8 : Nat) - 4 = 4 from rfl,
      readU32_peel4 _ _ (length_encodeU32 _) 4 (by norm_num),
      show (4 : Nat) - 4 = 0 from rfl, readU32_encodeU32]

theorem readU32_encodeWmo_pos_rot (r : WmoRecord) :
    readU32 (encodeWmoRecord r) 4 = r.posX % 4294967296 ∧
    readU32 (encodeWmoRecord r) 8 = r.posY % 4294967296 ∧
    readU32 (encodeWmoRecord r) 12 = r.posZ % 4294967296 ∧
    readU32 (encodeWmoRecord r) 16 = r.rotX % 4294967296 ∧
    readU32 (encodeWmoRecord r) 20 = r.rotY % 4294967296 ∧
    readU32 (encodeWmoRecord r) 24 = r.rotZ % 4294967296 := by
  unfold encodeWmoRecord
  simp only [List.append_assoc]
  refine ⟨?_, ?_, ?_, ?_, ?_, ?_⟩
  · rw [readU32_peel4 _ _ (length_encodeU32 _) 4 (by norm_num),
      show (4 : Nat) - 4 = 0 from rfl, readU32_encodeU32]
  · rw [readU32_peel4 _ _ (length_encodeU32 _) 8 (by norm_num),
      show (8 : Nat) - 4 = 4 from rfl,
      readU32_peel4 _ _ (length_encodeU32 _) 4 (by norm_num),
      show (4 : Nat) - 4 = 0 from rfl, readU32_encodeU32]
  · rw [readU32_peel4 _ _ (length_encodeU32 _) 12 (by norm_num),
      show (12 : Nat) - 4 = 8 from rfl,
      readU32_peel4 _ _ (length_encodeU32 _) 8 (by norm_num),
      show (8 : Nat) - 4 = 4 from rfl,
      readU32_peel4 _ _ (length_encodeU32 _) 4 (by norm_num),
      show (4 : Nat) - 4 = 0 from rfl, readU32_encodeU32]
  · rw [readU32_peel4 _ _ (length_encodeU32 _) 16 (by norm_num),
      show (16 : Nat) - 4 = 12 from rfl,
      readU32_peel4 _ _ (length_encodeU32 _) 12 (by norm_num),
      show (12 : Nat) - 4 = 8 from rfl,
      readU32_peel4 _ _ (length_encodeU32 _) 8 (by norm_num),
      show (8 : Nat) - 4 = 4 from rfl,
      readU32_peel4 _ _ (length_encodeU32 _) 4 (by norm_num),
      show (4 : Nat) - 4 = 0 from rfl, readU32_encodeU32]
  · rw [readU32_peel4 _ _ (length_encodeU32 _) 20 (by norm_num),
      show (20 : Nat) - 4 = 16 from rfl,
      readU32_peel4 _ _ (length_encodeU32 _) 16 (by norm_num),
      show (16 : Nat) - 4 = 12 from rfl,
      readU32_peel4 _ _ (length_encodeU32 _) 12 (by norm_num),
      show (12 : Nat) - 4 = 8 from rfl,
      readU32_peel4 _ _ (length_encodeU32 _) 8 (by norm_num),
      show (8 : Nat) - 4 = 4 from rfl,
      readU32_peel4 _ _ (length_encodeU32 _) 4 (by norm_num),
      show (4 : Nat) - 4 = 0 from rfl, readU32_encodeU32]
  · rw [readU32_peel4 _ _ (length_encodeU32 _) 24 (by norm_num),
      show (24 : Nat) - 4 = 20 from rfl,
      readU32_peel4 _ _ (length_encodeU32 _) 20 (by norm_num),
      show (20 : Nat) - 4 = 16 from rfl,
      readU32_peel4 _ _ (length_encodeU32 _) 16 (by norm_num),
      show (16 : Nat) - 4 = 12 from rfl,
      readU32_peel4 _ _ (length_encodeU32 _) 12 (by norm_num),
      show (12 : Nat) - 4 = 8 from rfl,
      readU32_peel4 _ _ (length_encodeU32 _) 8 (by norm_num),
      show (8 : Nat) - 4 = 4 from rfl,
      readU32_peel4 _ _ (length_encodeU32 _) 4 (by norm_num),
      show (4 : Nat) - 4 = 0 from rfl, readU32_encodeU32]

theorem scanAux_step (f : File) (fuel pos : Nat) (hne : ¬ pos = f.length)
    (h8 : pos + 8 ≤ f.length) (hl : pos + 8 + readU32 f (pos + 4) ≤ f.length) :
    scanAux f (fuel + 1) pos =
      (scanAux f fuel (pos + 8 + readU32 f (pos + 4))).map
        (fun L => ⟨tagAt f pos, pos, readU32 f (pos + 4)⟩ :: L) := by
  conv_lhs => unfold scanAux
  rw [if_neg hne, if_neg (Nat.not_lt.mpr h8), if_neg (Nat.not_lt.mpr hl)]

theorem scanAux_nil (f : File) (fuel pos : Nat) (h : pos = f.length) :
    scanAux f fuel pos = some [] := by
  cases fuel <;> unfold scanAux <;> rw [if_pos h]

theorem readU32_append_ge (x rest : List Nat) (i : Nat) (h : x.length ≤ i) :
    readU32 (x ++ rest) i = readU32 rest (i - x.length) := by
  unfold readU32 readByte
  rw [getD_append_ge _ _ _ (by omega), getD_append_ge _ _ _ (by omega),
    getD_append_ge _ _ _ (by omega), getD_append_ge _ _ _ (by omega)]
  have e1 : i - x.length + 1 = i + 1 - x.length := by omega
  have e2 : i - x.length + 2 = i + 2 - x.length := by omega
  have e3 : i - x.length + 3 = i + 3 - x.length := by omega
  rw [e1, e2, e3]

theorem readU32_append_lt (x rest : List Nat) (i : Nat) (h : i + 4 ≤ x.length) :
    readU32 (x ++ rest) i = readU32 x i := by
  unfold readU32 readByte
  rw [getD_append_lt _ _ _ (by omega), getD_append_lt _ _ _ (by omega),
    getD_append_lt _ _ _ (by omega), getD_append_lt _ _ _ (by omega)]

theorem tagAt_append_ge (x rest : List Nat) (i : Nat) (h : x.length ≤ i) :
    tagAt (x ++ rest) i = tagAt rest (i - x.length) := by
  unfold tagAt readByte
  rw [getD_append_ge _ _ _ (by omega), getD_append_ge _ _ _ (by omega),
    getD_append_ge _ _ _ (by omega), getD_append_ge _ _ _ (by omega)]
  have e1 : i - x.length + 1 = i + 1 - x.length := by omega
  have e2 : i - x.length + 2 = i + 2 - x.length := by omega
  have e3 : i - x.length + 3 = i + 3 - x.length := by omega
  rw [e1, e2, e3]

theorem tagAt_append_lt (x rest : List Nat) (i : Nat) (h : i + 4 ≤ x.length) :
    tagAt (x ++ rest) i = tagAt x i := by
  unfold tagAt readByte
  rw [getD_append_lt _ _ _ (by omega), getD_append_lt _ _ _ (by omega),
    getD_append_lt _ _ _ (by omega), getD_append_lt _ _ _ (by omega)]

theorem decodeEntriesAux_replicate (n : Nat) :
    decodeEntriesAux (List.replicate (16 * n) 0) =
      List.replicate n (⟨0, 0, 0, 0⟩ : MCINEntry) := by
  induction n with
  | zero => rfl
  | succ m ih =>
    rw [show 16 * (m + 1) = 16 + 16 * m by ring, List.replicate_add]
    show decodeEntriesAux (0 :: 0 :: 0 :: 0 :: 0 :: 0 :: 0 :: 0 ::
      0 :: 0 :: 0 :: 0 :: 0 :: 0 :: 0 :: 0 :: List.replicate (16 * m) 0) = _
    rw [decodeEntriesAux, ih]
    rfl

theorem mergeAux_nil_zero (n : Nat) :
    mergeAux [] (List.replicate n (⟨0, 0, 0, 0⟩ : MCINEntry)) n =
      List.replicate n (⟨0, 0, 0, 0⟩ : MCINEntry) := by
  induction n with
  | zero => rfl
  | succ m ih =>
    rw [List.replicate_succ]
    unfold mergeAux
    rw [List.headD_nil, List.headD_cons, List.tail_nil, List.tail_cons, ih]

theorem encodeTable_replicate_zero (n : Nat) :
    encodeTable (List.replicate n (⟨0, 0, 0, 0⟩ : MCINEntry)) =
      List.replicate (16 * n) 0 := by
  induction n with
  | zero => rfl
  | succ m ih =>
    rw [List.replicate_succ, show 16 * (m + 1) = 16 + 16 * m by ring, List.replicate_add]
    show encodeEntry ⟨0, 0, 0, 0⟩ ++ encodeTable (List.replicate m ⟨0, 0, 0, 0⟩) = _
    rw [ih]
    rfl

/-- A well-formed current-generation file witnessing a successful repair:
one index chunk with an all-zero 4096-byte payload, an empty
doodad-placement chunk, and an empty object-placement chunk. -/
def wfile : File :=
  MCINtag ++ encodeU32 4096 ++ List.replicate 4096 0 ++
    MDDFtag ++ encodeU32 0 ++ MODFtag ++ encodeU32 0

/-- The chunk sequence of `wfile`. -/
def wchunks : List ChunkInfo :=
  [⟨MCINtag, 0, 4096⟩, ⟨MDDFtag, 4104, 0⟩, ⟨MODFtag, 4112, 0⟩]

/-- The 16-byte tail of `wfile` holding the two empty placement chunks. -/
def wtail : List Nat := MDDFtag ++ encodeU32 0 ++ MODFtag ++ encodeU32 0

theorem wfile_split : wfile = (MCINtag ++ encodeU32 4096) ++
    (List.replicate 4096 0 ++ wtail) := by
  unfold wfile wtail
  simp only [List.append_assoc]

theorem wfile_split2 : wfile = (MCINtag ++ encodeU32 4096 ++ List.replicate 4096 0) ++
    wtail := by
  unfold wfile wtail
  simp only [List.append_assoc]

theorem length_whead : (MCINtag ++ encodeU32 4096).length = 8 := by decide

theorem length_whalf : (MCINtag ++ encodeU32 4096 ++ List.replicate 4096 0).length = 4104 := by
  rw [List.length_append, List.length_replicate, length_whead]

theorem length_wfile : wfile.length = 4120 := by
  rw [wfile_split2, List.length_append, length_whalf]
  rfl

theorem wfile_read4 : readU32 wfile 4 = 4096 := by
  rw [wfile_split, readU32_append_lt _ _ 4 (by rw [length_whead])]
  decide

theorem wfile_tag0 : tagAt wfile 0 = MCINtag := by
  rw [wfile_split, tagAt_append_lt _ _ 0 (by rw [length_whead]; omega)]
  decide

theorem wfile_hi_read (j : Nat) : readU32 wfile (4104 + j) = readU32 wtail j := by
  rw [wfile_split2, readU32_append_ge _ _ _ (by rw [length_whalf]; omega),
    length_whalf]
  have e : 4104 + j - 4104 = j := by omega
  rw [e]

theorem wfile_hi_tag (j : Nat) : tagAt wfile (4104 + j) = tagAt wtail j := by
  rw [wfile_split2, tagAt_append_ge _ _ _ (by rw [length_whalf]; omega),
    length_whalf]
  have e : 4104 + j - 4104 = j := by omega
  rw [e]

theorem wfile_read4108 : readU32 wfile 4108 = 0 := by
  rw [show (4108 : Nat) = 4104 + 4 from rfl, wfile_hi_read]
  decide

theorem wfile_tag4104 : tagAt wfile 4104 = MDDFtag := by
  rw [show (4104 : Nat) = 4104 + 0 from rfl, wfile_hi_tag]
  decide

theorem wfile_read4116 : readU32 wfile 4116 = 0 := by
  rw [show (4116 : Nat) = 4104 + 12 from rfl, wfile_hi_read]
  decide

theorem wfile_tag4112 : tagAt wfile 4112 = MODFtag := by
  rw [show (4112 : Nat) = 4104 + 8 from rfl, wfile_hi_tag]
  decide

theorem wfile_payload : (wfile.drop 8).take 4096 = List.replicate 4096 0 := by
  rw [wfile_split, List.drop_left' length_whead,
    List.take_left' (List.length_replicate 4096 0)]

theorem wfile_scan : scanChunks wfile = some wchunks := by
  unfold scanChunks
  rw [length_wfile, show (4120 : Nat) = 4119 + 1 from rfl,
    scanAux_step wfile 4119 0 (by have := length_wfile; omega)
      (by have := length_wfile; omega)
      (by rw [wfile_read4]; have := length_wfile; omega),
    wfile_read4, wfile_tag0]
  rw [show (0 : Nat) + 8 + 4096 = 4104 from rfl,
    show (4119 : Nat) = 4118 + 1 from rfl,
    scanAux_step wfile 4118 4104 (by have := length_wfile; omega)
      (by have := length_wfile; omega)
      (by rw [show (4104 : Nat) + 4 = 4108 from rfl, wfile_read4108]
          have := length_wfile
          omega)]
  rw [show (4104 : Nat) + 4 = 4108 from rfl, wfile_read4108, wfile_tag4104]
  rw [show (4104 : Nat) + 8 + 0 = 4112 from rfl,
    show (4118 : Nat) = 4117 + 1 from rfl,
    scanAux_step wfile 4117 4112 (by have := length_wfile; omega)
      (by have := length_wfile; omega)
      (by rw [show (4112 : Nat) + 4 = 4116 from rfl, wfile_read4116]
          have := length_wfile
          omega)]
  rw [show (4112 : Nat) + 4 = 4116 from rfl, wfile_read4116, wfile_tag4112]
  rw [show (4112 : Nat) + 8 + 0 = 4120 from rfl,
    scanAux_nil wfile 4117 4120 length_wfile.symm]
  rfl

theorem wfile_valid : bytesValid wfile = true := by
  unfold bytesValid
  rw [List.all_eq_true]
  intro b hb
  rw [decide_eq_true_eq]
  unfold wfile MCINtag MDDFtag MODFtag encodeU32 at hb
  simp only [List.mem_append, List.mem_replicate, List.mem_cons,
    List.not_mem_nil, or_false] at hb
  omega

/-- The repair state after the two scan phases on `wfile`. -/
def wdata : OffsetFixData :=
  { initOffsetFixData with offsetMDDF := 4104, offsetMODF := 4112 }

theorem findMCNKs_wfile : findMCNKs wfile initOffsetFixData = .ok initOffsetFixData := by
  unfold findMCNKs
  rw [wfile_scan]
  rfl

theorem findMDDFandMODF_wfile : findMDDFandMODF wfile initOffsetFixData = .ok wdata := by
  unfold findMDDFandMODF
  rw [wfile_scan]
  rfl

theorem fixMCNKs_wfile (d : OffsetFixData) (hd : d.positions = []) :
    fixMCNKs wfile d = .ok wfile := by
  have hdec : decodeEntriesAux (List.replicate 4096 0) =
      List.replicate 256 (⟨0, 0, 0, 0⟩ : MCINEntry) := by
    have h := decodeEntriesAux_replicate 256
    norm_num at h
    exact h
  have henc : encodeTable (List.replicate 256 (⟨0, 0, 0, 0⟩ : MCINEntry)) =
      List.replicate 4096 0 := by
    have h := encodeTable_replicate_zero 256
    norm_num at h
    exact h
  unfold fixMCNKs
  rw [wfile_scan]
  show (if 4096 ≤ (4096 : Nat) then Except.ok (writeBytes wfile (0 + 8)
      (encodeTable (mergeAux d.positions
        (decodeEntriesAux ((wfile.drop (0 + 8)).take 4096)) 256)))
    else Except.error RepairError.OffsetOutOfRange) = Except.ok wfile
  rw [if_pos (Nat.le_refl _), hd, show (0 : Nat) + 8 = 8 from rfl, wfile_payload,
    hdec, mergeAux_nil_zero 256, henc,
    writeBytes_of_region wfile 8 (List.replicate 4096 0)
      (by rw [List.length_replicate]; have := length_wfile; omega)
      (by rw [List.length_replicate]; exact wfile_payload)]

theorem patch_wfile_mddf : patchChunkPositions wfile 4104 doodadRecordSize 0 0 0 = wfile := by
  unfold patchChunkPositions doodadRecordSize
  rw [show (4104 : Nat) + 4 = 4108 from rfl, wfile_read4108, List.take_zero,
    show (0 : Nat) / 38 = 0 from rfl,
    show patchRecords [] 38 0 0 0 0 = ([] : List Nat) from rfl]
  apply writeBytes_of_region
  · rw [List.length_nil]
    have := length_wfile
    omega
  · rw [List.length_nil, List.take_zero]

theorem patch_wfile_modf : patchChunkPositions wfile 4112 wmoRecordSize 0 0 0 = wfile := by
  unfold patchChunkPositions wmoRecordSize
  rw [show (4112 : Nat) + 4 = 4116 from rfl, wfile_read4116, List.take_zero,
    show (0 : Nat) / 58 = 0 from rfl,
    show patchRecords [] 58 0 0 0 0 = ([] : List Nat) from rfl]
  apply writeBytes_of_region
  · rw [List.length_nil]
    have := length_wfile
    omega
  · rw [List.length_nil, List.take_zero]

theorem fixDoodads_wfile : fixDoodads wfile wdata = .ok wfile := by
  unfold fixDoodads
  show Except.ok (patchChunkPositions wfile 4104 doodadRecordSize 0 0 0) = _
  rw [patch_wfile_mddf]

theorem fixWMOs_wfile : fixWMOs wfile wdata = .ok wfile := by
  unfold fixWMOs
  show Except.ok (patchChunkPositions wfile 4112 wmoRecordSize 0 0 0) = _
  rw [patch_wfile_modf]

/-- The witness file is a fixed point of the whole repair pipeline. -/
theorem wfile_runSteps : runSteps wfile = Sum.inr wfile := by
  unfold runSteps runStepsT
  rw [findMCNKs_wfile]
  dsimp only
  rw [findMDDFandMODF_wfile]
  dsimp only
  rw [fixMCNKs_wfile wdata rfl]
  dsimp only
  rw [fixDoodads_wfile]
  dsimp only
  rw [fixWMOs_wfile]

/-- A malformed input: three stray bytes, not even one chunk header. -/
def bfile : File := [1, 2, 3]

theorem bfile_runSteps : runSteps bfile = Sum.inl (RepairError.TruncatedChunk, bfile) := by
  decide

theorem readU32_cons16 (b0 b1 b2 b3 b4 b5 b6 b7 b8 b9 b10 b11 b12 b13 b14 b15 : Nat)
    (bs : List Nat) (j : Nat) :
    readU32 (b0 :: b1 :: b2 :: b3 :: b4 :: b5 :: b6 :: b7 ::
      b8 :: b9 :: b10 :: b11 :: b12 :: b13 :: b14 :: b15 :: bs) (16 + j) =
    readU32 bs j := by
  show readU32 ([b0, b1, b2, b3, b4, b5, b6, b7, b8, b9, b10, b11, b12, b13, b14, b15]
    ++ bs) (16 + j) = readU32 bs j
  rw [readU32_append_ge _ _ _ (by simp)]
  have e : 16 + j - ([b0, b1, b2, b3, b4, b5, b6, b7, b8, b9, b10, b11, b12,
    b13, b14, b15] : List Nat).length = j := by
    simp
  rw [e]

theorem decodeEntriesAux_getD (bs : List Nat) (i : Nat) (h : 16 * (i + 1) ≤ bs.length) :
    (decodeEntriesAux bs).getD i ⟨0, 0, 0, 0⟩ =
      ⟨readU32 bs (16 * i), readU32 bs (16 * i + 4), readU32 bs (16 * i + 8),
       readU32 bs (16 * i + 12)⟩ := by
  induction i generalizing bs with
  | zero =>
    rcases bs with _ | ⟨b0, bs⟩
    · simp only [List.length_nil] at h; omega
    rcases bs with _ | ⟨b1, bs⟩
    · simp only [List.length_cons, List.length_nil] at h; omega
    rcases bs with _ | ⟨b2, bs⟩
    · simp only [List.length_cons, List.length_nil] at h; omega
    rcases bs with _ | ⟨b3, bs⟩
    · simp only [List.length_cons, List.length_nil] at h; omega
    rcases bs with _ | ⟨b4, bs⟩
    · simp only [List.length_cons, List.length_nil] at h; omega
    rcases bs with _ | ⟨b5, bs⟩
    · simp only [List.length_cons, List.length_nil] at h; omega
    rcases bs with _ | ⟨b6, bs⟩
    · simp only [List.length_cons, List.length_nil] at h; omega
    rcases bs with _ | ⟨b7, bs⟩
    · simp only [List.length_cons, List.length_nil] at h; omega
    rcases bs with _ | ⟨b8, bs⟩
    · simp only [List.length_cons, List.length_nil] at h; omega
    rcases bs with _ | ⟨b9, bs⟩
    · simp only [List.length_cons, List.length_nil] at h; omega
    rcases bs with _ | ⟨b10, bs⟩
    · simp only [List.length_cons, List.length_nil] at h; omega
    rcases bs with _ | ⟨b11, bs⟩
    · simp only [List.length_cons, List.length_nil] at h; omega
    rcases bs with _ | ⟨b12, bs⟩
    · simp only [List.length_cons, List.length_nil] at h; omega
    rcases bs with _ | ⟨b13, bs⟩
    · simp only [List.length_cons, List.length_nil] at h; omega
    rcases bs with _ | ⟨b14, bs⟩
    · simp only [List.length_cons, List.length_nil] at h; omega
    rcases bs with _ | ⟨b15, bs⟩
    · simp only [List.length_cons, List.length_nil] at h; omega
    rfl
  | succ k ih =>
    rcases bs with _ | ⟨b0, bs⟩
    · simp only [List.length_nil] at h; omega
    rcases bs with _ | ⟨b1, bs⟩
    · simp only [List.length_cons, List.length_nil] at h; omega
    rcases bs with _ | ⟨b2, bs⟩
    · simp only [List.length_cons, List.length_nil] at h; omega
    rcases bs with _ | ⟨b3, bs⟩
    · simp only [List.length_cons, List.length_nil] at h; omega
    rcases bs with _ | ⟨b4, bs⟩
    · simp only [List.length_cons, List.length_nil] at h; omega
    rcases bs with _ | ⟨b5, bs⟩
    · simp only [List.length_cons, List.length_nil] at h; omega
    rcases bs with _ | ⟨b6, bs⟩
    · simp only [List.length_cons, List.length_nil] at h; omega
    rcases bs with _ | ⟨b7, bs⟩
    · simp only [List.length_cons, List.length_nil] at h; omega
    rcases bs with _ | ⟨b8, bs⟩
    · simp only [List.length_cons, List.length_nil] at h; omega
    rcases bs with _ | ⟨b9, bs⟩
    · simp only [List.length_cons, List.length_nil] at h; omega
    rcases bs with _ | ⟨b10, bs⟩
    · simp only [List.length_cons, List.length_nil] at h; omega
    rcases bs with _ | ⟨b11, bs⟩
    · simp only [List.length_cons, List.length_nil] at h; omega
    rcases bs with _ | ⟨b12, bs⟩
    · simp only [List.length_cons, List.length_nil] at h; omega
    rcases bs with _ | ⟨b13, bs⟩
    · simp only [List.length_cons, List.length_nil] at h; omega
    rcases bs with _ | ⟨b14, bs⟩
    · simp only [List.length_cons, List.length_nil] at h; omega
    rcases bs with _ | ⟨b15, bs⟩
    · simp only [List.length_cons, List.length_nil] at h; omega
    simp only [decodeEntriesAux, List.getD_cons_succ]
    rw [ih bs (by simp only [List.length_cons] at h; omega)]
    have e1 : 16 * (k + 1) = 16 + 16 * k := by ring
    have e2 : 16 + 16 * k + 4 = 16 + (16 * k + 4) := by ring
    have e3 : 16 + 16 * k + 8 = 16 + (16 * k + 8) := by ring
    have e4 : 16 + 16 * k + 12 = 16 + (16 * k + 12) := by ring
    rw [e1, e2, e3, e4, readU32_cons16, readU32_cons16, readU32_cons16, readU32_cons16]

theorem readU32_drop_take (f : File) (a n k : Nat) (hk : k + 4 ≤ n) :
    readU32 ((f.drop a).take n) k = readU32 f (a + k) := by
  unfold readU32 readByte
  rw [getD_drop_take, getD_drop_take, getD_drop_take, getD_drop_take,
    if_pos (by omega), if_pos (by omega), if_pos (by omega), if_pos (by omega)]
  have e1 : a + (k + 1) = a + k + 1 := by omega
  have e2 : a + (k + 2) = a + k + 2 := by omega
  have e3 : a + (k + 3) = a + k + 3 := by omega
  rw [e1, e2, e3]

theorem readU32_encodeTable_entry (es : List MCINEntry) (i k : Nat)
    (hi : i < es.length) (hk : k + 4 ≤ 16) :
    readU32 (encodeTable es) (16 * i + k) =
      readU32 (encodeEntry (es.getD i ⟨0, 0, 0, 0⟩)) k := by
  unfold readU32 readByte
  have e1 : 16 * i + k + 1 = 16 * i + (k + 1) := by omega
  have e2 : 16 * i + k + 2 = 16 * i + (k + 2) := by omega
  have e3 : 16 * i + k + 3 = 16 * i + (k + 3) := by omega
  rw [e1, e2, e3, getD_encodeTable es i k (by omega) hi,
    getD_encodeTable es i (k + 1) (by omega) hi,
    getD_encodeTable es i (k + 2) (by omega) hi,
    getD_encodeTable es i (k + 3) (by omega) hi]

theorem readU32_encodeEntry_temp1 (e : MCINEntry) :
    readU32 (encodeEntry e) 8 = e.temp1 % 4294967296 := by
  show e.temp1 % 256 + 256 * (e.temp1 / 256 % 256) + 65536 * (e.temp1 / 65536 % 256) +
    16777216 * (e.temp1 / 16777216 % 256) = e.temp1 % 4294967296
  omega

theorem readU32_encodeEntry_temp2 (e : MCINEntry) :
    readU32 (encodeEntry e) 12 = e.temp2 % 4294967296 := by
  show e.temp2 % 256 + 256 * (e.temp2 / 256 % 256) + 65536 * (e.temp2 / 65536 % 256) +
    16777216 * (e.temp2 / 16777216 % 256) = e.temp2 % 4294967296
  omega

/-- Claim C1: for every repair invocation, a failure anywhere in the repair
pass leaves the input file's bytes unmodified (every error outcome carries
the input file unchanged) and produces no output file: the driver's catch
block returns before the output path is written. -/
theorem claim_C1_failure_leaves_input_untouched (f g : File) (e : RepairError)
    (h : runSteps f = Sum.inl (e, g)) :
    g = f ∧ runOffsetFix (some f) = ⟨some f, none, 1, true⟩ := by
  have hg : g = f := runSteps_error f g e h
  subst hg
  refine ⟨rfl, ?_⟩
  unfold runOffsetFix
  dsimp only
  rw [h]

theorem claim_C1_failure_leaves_input_untouched_witness :
    bfile = bfile ∧ runOffsetFix (some bfile) = ⟨some bfile, none, 1, true⟩ :=
  claim_C1_failure_leaves_input_untouched bfile bfile RepairError.TruncatedChunk bfile_runSteps

/-- Claim C2: every repair invocation performs its steps in program order —
the executed step sequence is always a prefix of [scan terrain, scan
placements, write index, write doodads, write objects]; in particular any
write step in the executed sequence is preceded by both scan steps. -/
theorem claim_C2_scan_before_write (f : File) :
    ∃ n, (runStepsT f).2 = fullRepairTrace.take n ∧
      ∀ e ∈ (runStepsT f).2,
        (e = RepairEvent.writeIndex ∨ e = RepairEvent.writeDoodads ∨
          e = RepairEvent.writeWmos) →
        RepairEvent.scanTerrain ∈ (runStepsT f).2 ∧
          RepairEvent.scanPlacements ∈ (runStepsT f).2 := by
  rcases hscan : scanChunks f with _ | L
  · have htr : (runStepsT f).2 = [RepairEvent.scanTerrain] := by
      unfold runStepsT findMCNKs
      rw [hscan]
    rw [htr]
    exact ⟨1, rfl, by decide⟩
  · rcases hfD : L.find? (fun c => decide (c.tag = MDDFtag)) with _ | cD
    · rcases hfW : L.find? (fun c => decide (c.tag = MODFtag)) with _ | cW
      · have htr : (runStepsT f).2 = [RepairEvent.scanTerrain, RepairEvent.scanPlacements] := by
          unfold runStepsT findMCNKs findMDDFandMODF
          rw [hscan]
          dsimp only
          rw [hfD, hfW]
        rw [htr]
        exact ⟨2, rfl, by decide⟩
      · have htr : (runStepsT f).2 = [RepairEvent.scanTerrain, RepairEvent.scanPlacements] := by
          unfold runStepsT findMCNKs findMDDFandMODF
          rw [hscan]
          dsimp only
          rw [hfD, hfW]
        rw [htr]
        exact ⟨2, rfl, by decide⟩
    · rcases hfW : L.find? (fun c => decide (c.tag = MODFtag)) with _ | cW
      · have htr : (runStepsT f).2 = [RepairEvent.scanTerrain, RepairEvent.scanPlacements] := by
          unfold runStepsT findMCNKs findMDDFandMODF
          rw [hscan]
          dsimp only
          rw [hfD, hfW]
        rw [htr]
        exact ⟨2, rfl, by decide⟩
      · rcases hfI : L.find? (fun c => decide (c.tag = MCINtag)) with _ | cI
        · have htr : (runStepsT f).2 = [RepairEvent.scanTerrain, RepairEvent.scanPlacements] := by
            unfold runStepsT findMCNKs findMDDFandMODF fixMCNKs
            rw [hscan]
            dsimp only
            rw [hfD, hfW]
            dsimp only
            rw [hfI]
          rw [htr]
          exact ⟨2, rfl, by decide⟩
        · by_cases hlen : 4096 ≤ cI.len
          · have htr : (runStepsT f).2 = fullRepairTrace := by
              unfold runStepsT findMCNKs findMDDFandMODF fixMCNKs fixDoodads fixWMOs
              rw [hscan]
              dsimp only
              rw [hfD, hfW]
              dsimp only
              rw [hfI]
              dsimp only
              rw [if_pos hlen]
            rw [htr]
            exact ⟨5, rfl, by decide⟩
          · have htr : (runStepsT f).2 = [RepairEvent.scanTerrain, RepairEvent.scanPlacements] := by
              unfold runStepsT findMCNKs findMDDFandMODF fixMCNKs
              rw [hscan]
              dsimp only
              rw [hfD, hfW]
              dsimp only
              rw [hfI]
              dsimp only
              rw [if_neg hlen]
            rw [htr]
            exact ⟨2, rfl, by decide⟩

theorem claim_C2_scan_before_write_witness :
    ∃ n, (runStepsT []).2 = fullRepairTrace.take n ∧
      ∀ e ∈ (runStepsT []).2,
        (e = RepairEvent.writeIndex ∨ e = RepairEvent.writeDoodads ∨
          e = RepairEvent.writeWmos) →
        RepairEvent.scanTerrain ∈ (runStepsT []).2 ∧
          RepairEvent.scanPlacements ∈ (runStepsT []).2 :=
  claim_C2_scan_before_write []

/-- Claim C3: a conversion invocation produces exactly one world-table file,
and exactly one area file for each tile number whose offset-table slot is
non-zero (within the 64×64 = 4096-slot table), and zero area files for every
other tile number. -/
theorem claim_C3_one_world_one_area_per_tile (offsets : List Nat) (blob : File) :
    (convertRun offsets blob).worldFiles = 1 ∧
    ∀ n, ((convertRun offsets blob).areaFiles.map Prod.fst).count n =
      if offsets.getD n 0 ≠ 0 ∧ n < 4096 then 1 else 0 := by
  constructor
  · rfl
  · intro n
    dsimp only [convertRun]
    rw [List.map_map]
    have hid : (Prod.fst ∘ fun k => (k, getTileBytes blob (offsets.getD k 0))) =
        (id : Nat → Nat) := rfl
    rw [hid, List.map_id]
    exact count_getExistingAdtsNumbers offsets n

theorem claim_C3_one_world_one_area_per_tile_witness :
    (convertRun [] []).worldFiles = 1 ∧
    ∀ n, ((convertRun [] []).areaFiles.map Prod.fst).count n =
      if ([] : List Nat).getD n 0 ≠ 0 ∧ n < 4096 then 1 else 0 :=
  claim_C3_one_world_one_area_per_tile [] []

/-- Claim C4: the rebuilt chunk index always holds exactly 256 entries of 16
bytes each — 4096 bytes of payload in total — and the terrain scan never
records more than the fixed capacity of 256 chunks. -/
theorem claim_C4_index_fixed_capacity :
    (∀ e : MCINEntry, (encodeEntry e).length = 16) ∧
    (∀ scanned olds : List MCINEntry, (mergeAux scanned olds 256).length = 256) ∧
    (∀ scanned olds : List MCINEntry,
      (encodeTable (mergeAux scanned olds 256)).length = 4096) ∧
    (∀ (f : File) (d d' : OffsetFixData), findMCNKs f d = Except.ok d' →
      d'.positions.length ≤ 256 ∧ d'.positionsMCNK.length ≤ 256) := by
  refine ⟨fun e => length_encodeEntry e, fun sc olds => length_mergeAux sc olds 256,
    fun sc olds => length_encodeTable_merge sc olds, ?_⟩
  intro f d d' h
  unfold findMCNKs at h
  rcases hscan : scanChunks f with _ | L <;> rw [hscan] at h <;> dsimp only at h
  · exact Except.noConfusion h
  · simp only [Except.ok.injEq] at h
    subst h
    constructor <;>
      simp only [List.length_map, scannedMCNKs, List.length_take] <;>
      exact Nat.min_le_left _ _

theorem claim_C4_index_fixed_capacity_witness :
    initOffsetFixData.positions.length ≤ 256 ∧
      initOffsetFixData.positionsMCNK.length ≤ 256 :=
  claim_C4_index_fixed_capacity.2.2.2 wfile initOffsetFixData initOffsetFixData
    findMCNKs_wfile

/-- Claim C5: every invocation exits 0 or 1; it prints to standard error
exactly when the exit status is non-zero; an unopenable input exits 1 with an
error message, every repair error exits 1 with an error message, and a
successful repair exits 0 printing nothing. -/
theorem claim_C5_exit_status_and_stderr (inp : Option File) :
    ((runOffsetFix inp).exitCode = 0 ∨ (runOffsetFix inp).exitCode = 1) ∧
    ((runOffsetFix inp).exitCode ≠ 0 ↔ (runOffsetFix inp).errOutput = true) ∧
    (inp = none → (runOffsetFix inp).exitCode = 1 ∧ (runOffsetFix inp).errOutput = true) ∧
    (∀ f e g, inp = some f → runSteps f = Sum.inl (e, g) →
      (runOffsetFix inp).exitCode = 1 ∧ (runOffsetFix inp).errOutput = true) ∧
    (∀ f f', inp = some f → runSteps f = Sum.inr f' →
      (runOffsetFix inp).exitCode = 0 ∧ (runOffsetFix inp).errOutput = false) := by
  rcases inp with _ | f
  · exact ⟨Or.inr rfl, by simp [runOffsetFix], fun _ => ⟨rfl, rfl⟩,
      fun f e g hs _ => Option.noConfusion hs,
      fun f f' hs _ => Option.noConfusion hs⟩
  · rcases hr : runSteps f with ⟨e, g⟩ | f'
    · have hres : runOffsetFix (some f) = ⟨some g, none, 1, true⟩ := by
        unfold runOffsetFix
        dsimp only
        rw [hr]
      rw [hres]
      refine ⟨Or.inr rfl, by simp, fun hn => Option.noConfusion hn,
        fun f0 e0 g0 hs _ => ⟨rfl, rfl⟩, ?_⟩
      intro f0 f0' hs hr0
      injection hs with hfe
      subst hfe
      rw [hr] at hr0
      exact Sum.noConfusion hr0
    · have hres : runOffsetFix (some f) = ⟨some f', some f', 0, false⟩ := by
        unfold runOffsetFix
        dsimp only
        rw [hr]
      rw [hres]
      refine ⟨Or.inl rfl, by simp, fun hn => Option.noConfusion hn, ?_,
        fun f0 f0' hs _ => ⟨rfl, rfl⟩⟩
      intro f0 e0 g0 hs hr0
      injection hs with hfe
      subst hfe
      rw [hr] at hr0
      exact Sum.noConfusion hr0

theorem claim_C5_exit_status_and_stderr_witness :
    (runOffsetFix (some wfile)).exitCode = 0 ∧
      (runOffsetFix (some wfile)).errOutput = false :=
  (claim_C5_exit_status_and_stderr (some wfile)).2.2.2.2 wfile wfile rfl wfile_runSteps

/-- Claim C6: offset repair is idempotent — on a file the repair pass has
already repaired successfully, a second repair pass succeeds and returns the
same bytes, so the driver copies out a byte-identical file. -/
theorem claim_C6_repair_idempotent (f f' : File) (h : runSteps f = Sum.inr f') :
    runSteps f' = Sum.inr f' ∧ runOffsetFix (some f') = ⟨some f', some f', 0, false⟩ := by
  have hfix : runSteps f' = Sum.inr f' := runSteps_fixpoint f f' h
  refine ⟨hfix, ?_⟩
  unfold runOffsetFix
  dsimp only
  rw [hfix]

theorem claim_C6_repair_idempotent_witness :
    runSteps wfile = Sum.inr wfile ∧
      runOffsetFix (some wfile) = ⟨some wfile, some wfile, 0, false⟩ :=
  claim_C6_repair_idempotent wfile wfile wfile_runSteps

/-- Claim C7: placement positions are mutated only by the repair pass's
fixed translation — the patch adds the same delta to the three position
dwords of a record and touches no other byte of it — while the conversion
codec copies position and rotation fields verbatim for both placement
variants, doodad and object (only the name reference is re-indexed). -/
theorem claim_C7_positions_only_translated (reindex : Nat → Nat) (bs ws : List Nat)
    (hv : bytesValid bs = true) (hw : bytesValid ws = true)
    (pr : List Nat) (dx dy dz : Int) (hpr : 16 ≤ pr.length) :
    ((decodeDoodadRecord (convertDoodadRecord reindex bs)).posX =
        (decodeDoodadRecord bs).posX ∧
      (decodeDoodadRecord (convertDoodadRecord reindex bs)).posY =
        (decodeDoodadRecord bs).posY ∧
      (decodeDoodadRecord (convertDoodadRecord reindex bs)).posZ =
        (decodeDoodadRecord bs).posZ ∧
      (decodeDoodadRecord (convertDoodadRecord reindex bs)).rotX =
        (decodeDoodadRecord bs).rotX ∧
      (decodeDoodadRecord (convertDoodadRecord reindex bs)).rotY =
        (decodeDoodadRecord bs).rotY ∧
      (decodeDoodadRecord (convertDoodadRecord reindex bs)).rotZ =
        (decodeDoodadRecord bs).rotZ) ∧
    ((decodeWmoRecord (convertWmoRecord reindex ws)).posX =
        (decodeWmoRecord ws).posX ∧
      (decodeWmoRecord (convertWmoRecord reindex ws)).posY =
        (decodeWmoRecord ws).posY ∧
      (decodeWmoRecord (convertWmoRecord reindex ws)).posZ =
        (decodeWmoRecord ws).posZ ∧
      (decodeWmoRecord (convertWmoRecord reindex ws)).rotX =
        (decodeWmoRecord ws).rotX ∧
      (decodeWmoRecord (convertWmoRecord reindex ws)).rotY =
        (decodeWmoRecord ws).rotY ∧
      (decodeWmoRecord (convertWmoRecord reindex ws)).rotZ =
        (decodeWmoRecord ws).rotZ) ∧
    (readU32 (patchRecord pr dx dy dz) 4 = addDelta (readU32 pr 4) dx ∧
      readU32 (patchRecord pr dx dy dz) 8 = addDelta (readU32 pr 8) dy ∧
      readU32 (patchRecord pr dx dy dz) 12 = addDelta (readU32 pr 12) dz) ∧
    (∀ j, j < 4 → (patchRecord pr dx dy dz).getD j 0 = pr.getD j 0) ∧
    (∀ j, 16 ≤ j → (patchRecord pr dx dy dz).getD j 0 = pr.getD j 0) := by
  have hlt : ∀ i, readU32 bs i < 4294967296 := fun i => readU32_lt bs i hv
  have hltw : ∀ i, readU32 ws i < 4294967296 := fun i => readU32_lt ws i hw
  obtain ⟨e4, e8, e12, e16, e20, e24⟩ := readU32_encodeDoodad_pos_rot
    { decodeDoodadRecord bs with nameIndex := reindex (decodeDoodadRecord bs).nameIndex }
  obtain ⟨w4, w8, w12, w16, w20, w24⟩ := readU32_encodeWmo_pos_rot
    { decodeWmoRecord ws with nameIndex := reindex (decodeWmoRecord ws).nameIndex }
  obtain ⟨k1, k2⟩ := patchRecord_keeps_rest pr dx dy dz hpr
  refine ⟨⟨?_, ?_, ?_, ?_, ?_, ?_⟩, ⟨?_, ?_, ?_, ?_, ?_, ?_⟩,
    readU32_patchRecord_pos pr dx dy dz hpr, k1, k2⟩
  · show readU32 (convertDoodadRecord reindex bs) 4 = readU32 bs 4
    unfold convertDoodadRecord
    rw [e4]
    exact Nat.mod_eq_of_lt (hlt 4)
  · show readU32 (convertDoodadRecord reindex bs) 8 = readU32 bs 8
    unfold convertDoodadRecord
    rw [e8]
    exact Nat.mod_eq_of_lt (hlt 8)
  · show readU32 (convertDoodadRecord reindex bs) 12 = readU32 bs 12
    unfold convertDoodadRecord
    rw [e12]
    exact Nat.mod_eq_of_lt (hlt 12)
  · show readU32 (convertDoodadRecord reindex bs) 16 = readU32 bs 16
    unfold convertDoodadRecord
    rw [e16]
    exact Nat.mod_eq_of_lt (hlt 16)
  · show readU32 (convertDoodadRecord reindex bs) 20 = readU32 bs 20
    unfold convertDoodadRecord
    rw [e20]
    exact Nat.mod_eq_of_lt (hlt 20)
  · show readU32 (convertDoodadRecord reindex bs) 24 = readU32 bs 24
    unfold convertDoodadRecord
    rw [e24]
    exact Nat.mod_eq_of_lt (hlt 24)
  · show readU32 (convertWmoRecord reindex ws) 4 = readU32 ws 4
    unfold convertWmoRecord
    rw [w4]
    exact Nat.mod_eq_of_lt (hltw 4)
  · show readU32 (convertWmoRecord reindex ws) 8 = readU32 ws 8
    unfold convertWmoRecord
    rw [w8]
    exact Nat.mod_eq_of_lt (hltw 8)
  · show readU32 (convertWmoRecord reindex ws) 12 = readU32 ws 12
    unfold convertWmoRecord
    rw [w12]
    exact Nat.mod_eq_of_lt (hltw 12)
  · show readU32 (convertWmoRecord reindex ws) 16 = readU32 ws 16
    unfold convertWmoRecord
    rw [w16]
    exact Nat.mod_eq_of_lt (hltw 16)
  · show readU32 (convertWmoRecord reindex ws) 20 = readU32 ws 20
    unfold convertWmoRecord
    rw [w20]
    exact Nat.mod_eq_of_lt (hltw 20)
  · show readU32 (convertWmoRecord reindex ws) 24 = readU32 ws 24
    unfold convertWmoRecord
    rw [w24]
    exact Nat.mod_eq_of_lt (hltw 24)

theorem claim_C7_positions_only_translated_witness :
    (decodeDoodadRecord (convertDoodadRecord (fun n => n + 1)
        (List.replicate 38 1))).posX =
      (decodeDoodadRecord (List.replicate 38 1)).posX ∧
    (decodeWmoRecord (convertWmoRecord (fun n => n + 1)
        (List.replicate 58 1))).posX =
      (decodeWmoRecord (List.replicate 58 1)).posX :=
  ⟨(claim_C7_positions_only_translated (fun n => n + 1) (List.replicate 38 1)
      (List.replicate 58 1) (by decide) (by decide)
      (List.replicate 16 0) 1 2 3 (by decide)).1.1,
    (claim_C7_positions_only_translated (fun n => n + 1) (List.replicate 38 1)
      (List.replicate 58 1) (by decide) (by decide)
      (List.replicate 16 0) 1 2 3 (by decide)).2.1.1⟩

/-- Claim C8: the two reserved dwords of every index entry are carried
through the index rewrite unchanged byte for byte (the rebuilt entry reuses
the old payload's reserved bytes), and an entry codec round-trip reproduces
the entry exactly, reserved fields included. -/
theorem claim_C8_reserved_fields_preserved (f : File) (hv : bytesValid f = true)
    (d : OffsetFixData) (f1 : File) (L : List ChunkInfo) (c : ChunkInfo)
    (hL : scanChunks f = some L)
    (hc : L.find? (fun k => decide (k.tag = MCINtag)) = some c)
    (hfix : fixMCNKs f d = Except.ok f1) :
    (∀ i, i < 256 →
      readU32 f1 (c.off + 8 + (16 * i + 8)) = readU32 f (c.off + 8 + (16 * i + 8)) ∧
      readU32 f1 (c.off + 8 + (16 * i + 12)) = readU32 f (c.off + 8 + (16 * i + 12))) ∧
    (∀ e : MCINEntry, e.offset < 4294967296 → e.size < 4294967296 →
      e.temp1 < 4294967296 → e.temp2 < 4294967296 →
      decodeEntriesAux (encodeEntry e) = [e]) := by
  constructor
  · unfold fixMCNKs at hfix
    rw [hL] at hfix
    dsimp only at hfix
    rw [hc] at hfix
    dsimp only at hfix
    by_cases hlen : 4096 ≤ c.len
    · rw [if_pos hlen] at hfix
      simp only [Except.ok.injEq] at hfix
      subst hfix
      have hmem := (find?_tag_mem L MCINtag c hc).1
      have hb := scanChunks_facts f L hL c hmem
      set olds := decodeEntriesAux ((f.drop (c.off + 8)).take 4096) with holds
      set es := mergeAux d.positions olds 256 with hes
      set tbl := encodeTable es with htbl
      have heslen : es.length = 256 := by rw [hes]; exact length_mergeAux _ _ 256
      have htlen : tbl.length = 4096 := by
        rw [htbl, hes]
        exact length_encodeTable_merge _ _
      have hwb : c.off + 8 + tbl.length ≤ f.length := by omega
      have hollen : 16 * (255 + 1) ≤ ((f.drop (c.off + 8)).take 4096).length := by
        rw [length_drop_take f _ _ (by omega)]
      intro i hi
      constructor
      · rw [readU32_writeBytes_inside f (c.off + 8) tbl hwb (16 * i + 8) (by omega),
          htbl, readU32_encodeTable_entry es i 8 (by omega) (by omega),
          readU32_encodeEntry_temp1, hes,
          mergeAux_getD d.positions olds 256 i hi]
        dsimp only
        rw [holds, decodeEntriesAux_getD _ i (by rw [length_drop_take f _ _ (by omega)]; omega)]
        dsimp only
        rw [readU32_drop_take f (c.off + 8) 4096 (16 * i + 8) (by omega)]
        exact Nat.mod_eq_of_lt (readU32_lt f _ hv)
      · rw [readU32_writeBytes_inside f (c.off + 8) tbl hwb (16 * i + 12) (by omega),
          htbl, readU32_encodeTable_entry es i 12 (by omega) (by omega),
          readU32_encodeEntry_temp2, hes,
          mergeAux_getD d.positions olds 256 i hi]
        dsimp only
        rw [holds, decodeEntriesAux_getD _ i (by rw [length_drop_take f _ _ (by omega)]; omega)]
        dsimp only
        rw [readU32_drop_take f (c.off + 8) 4096 (16 * i + 12) (by omega)]
        exact Nat.mod_eq_of_lt (readU32_lt f _ hv)
    · rw [if_neg hlen] at hfix
      exact Except.noConfusion hfix
  · intro e ho hs ht1 ht2
    have hre := decodeEntriesAux_encodeEntry e []
    rw [List.append_nil] at hre
    rw [hre]
    unfold canonEntry
    rw [Nat.mod_eq_of_lt ho, Nat.mod_eq_of_lt hs, Nat.mod_eq_of_lt ht1,
      Nat.mod_eq_of_lt ht2]
    rfl

theorem claim_C8_reserved_fields_preserved_witness :
    readU32 wfile (0 + 8 + (16 * 0 + 8)) = readU32 wfile (0 + 8 + (16 * 0 + 8)) ∧
      readU32 wfile (0 + 8 + (16 * 0 + 12)) = readU32 wfile (0 + 8 + (16 * 0 + 12)) :=
  (claim_C8_reserved_fields_preserved wfile wfile_valid wdata wfile wchunks
    ⟨MCINtag, 0, 4096⟩ wfile_scan rfl (fixMCNKs_wfile wdata rfl)).1 0 (by decide)

/-- Claim C9: as shipped, the translation delta applied to placement
positions is zero, because the repair state is value-initialized and nothing
assigns the origin-offset fields before the fix functions run; consequently
a successful repair rewrites only the index payload — every byte outside it,
placement positions included, keeps its original value. -/
theorem claim_C9_zero_delta_as_shipped :
    originDelta initOffsetFixData.offset = (0, 0, 0) ∧
    ∀ f f', bytesValid f = true → runSteps f = Sum.inr f' →
      ∃ L c, scanChunks f = some L ∧
        L.find? (fun k => decide (k.tag = MCINtag)) = some c ∧ 4096 ≤ c.len ∧
        f'.length = f.length ∧
        (∀ j, j < c.off + 8 ∨ c.off + 8 + 4096 ≤ j → f'.getD j 0 = f.getD j 0) ∧
        ∀ d ∈ L, (d.tag = MDDFtag ∨ d.tag = MODFtag) →
          ∀ j, d.off ≤ j ∧ j < d.off + 8 + d.len → f'.getD j 0 = f.getD j 0 := by
  refine ⟨rfl, ?_⟩
  intro f f' hv h
  obtain ⟨L, cI, hscan, hfI, hlen, hf'⟩ := runSteps_success_valid f f' hv h
  obtain ⟨hmem, hItag⟩ := find?_tag_mem L MCINtag cI hfI
  have hb := scanChunks_facts f L hscan cI hmem
  set tbl := encodeTable (mergeAux
    ((scannedMCNKs L).map (fun c => (⟨c.off, c.len, 0, 0⟩ : MCINEntry)))
    (decodeEntriesAux ((f.drop (cI.off + 8)).take 4096)) 256) with htbl
  have htlen : tbl.length = 4096 := by
    rw [htbl]
    exact length_encodeTable_merge _ _
  have houts : ∀ j, j < cI.off + 8 ∨ cI.off + 8 + 4096 ≤ j →
      f'.getD j 0 = f.getD j 0 := by
    intro j hj
    rw [hf', getD_writeBytes f (cI.off + 8) tbl (by omega) j, if_neg (by omega)]
  refine ⟨L, cI, hscan, hfI, hlen, ?_, houts, ?_⟩
  · rw [hf']
    exact length_writeBytes f _ tbl (by omega)
  · intro d hd htag j hj
    have hsep := scanChunks_sep f L hscan cI hmem d hd
    have hne : cI ≠ d := by
      intro he
      rcases htag with h1 | h1 <;> rw [← he, hItag] at h1
      · exact tags_distinct_ID h1
      · exact tags_distinct_IW h1
    rcases hsep with he | hsep | hsep
    · exact absurd he hne
    · exact houts j (Or.inr (by omega))
    · exact houts j (Or.inl (by omega))

theorem claim_C9_zero_delta_as_shipped_witness :
    ∃ L c, scanChunks wfile = some L ∧
      L.find? (fun k => decide (k.tag = MCINtag)) = some c ∧ 4096 ≤ c.len ∧
      wfile.length = wfile.length ∧
      (∀ j, j < c.off + 8 ∨ c.off + 8 + 4096 ≤ j → wfile.getD j 0 = wfile.getD j 0) ∧
      ∀ d ∈ L, (d.tag = MDDFtag ∨ d.tag = MODFtag) →
        ∀ j, d.off ≤ j ∧ j < d.off + 8 + d.len → wfile.getD j 0 = wfile.getD j 0 :=
  claim_C9_zero_delta_as_shipped.2 wfile wfile wfile_valid wfile_runSteps

/-- Claim C10: when the repair pass completes without error, the driver's
output file is a byte-identical copy of the repaired input file: the output
bytes equal the final input bytes. -/
theorem claim_C10_output_copies_repaired_input (f f' : File)
    (h : runSteps f = Sum.inr f') :
    runOffsetFix (some f) = ⟨some f', some f', 0, false⟩ ∧
    (runOffsetFix (some f)).output = (runOffsetFix (some f)).finalInput := by
  have hres : runOffsetFix (some f) = ⟨some f', some f', 0, false⟩ := by
    unfold runOffsetFix
    dsimp only
    rw [h]
  exact ⟨hres, by rw [hres]⟩

theorem claim_C10_output_copies_repaired_input_witness :
    runOffsetFix (some wfile) = ⟨some wfile, some wfile, 0, false⟩ ∧
    (runOffsetFix (some wfile)).output = (runOffsetFix (some wfile)).finalInput :=
  claim_C10_output_copies_repaired_input wfile wfile wfile_runSteps

end Parp
